import Mathlib

/-!
Verification of the tex2docx LaTeX-source transformation pipeline.

The Python sources operate on strings via the `regex` module and on
small pure data structures.  This development shallowly embeds the
relevant functions over `List Char`: every regex-based scanner from the
sources is rendered as a structurally recursive character scanner whose
behaviour matches the (left-to-right, leftmost-match, non-overlapping)
semantics of `regex.findall` / `regex.sub` / `regex.finditer` on the
concrete patterns used by the code.  Python `str.replace` becomes
`replaceAll` / `replaceFirst` below.
-/

namespace Tex2Docx

/-! ## Generic string toolkit (Python `str` primitives over `List Char`) -/

/-- Python `pat in s` (substring containment). -/
def containsSub (pat : List Char) : List Char → Bool
  | [] => pat.isEmpty
  | c :: rest => pat.isPrefixOf (c :: rest) || containsSub pat rest

/-- Worker for `replaceAll`: the `Nat` argument counts characters that are
still part of an already-matched occurrence and must be copied over
nothing (they were consumed by the match).  At `0` we scan for the next
occurrence of `pat`. -/
def replaceAllAux (pat rep : List Char) : Nat → List Char → List Char
  | _ + 1, [] => []
  | k + 1, _ :: rest => replaceAllAux pat rep k rest
  | 0, [] => []
  | 0, c :: rest =>
    if pat.isPrefixOf (c :: rest) && !pat.isEmpty then
      rep ++ replaceAllAux pat rep (pat.length - 1) rest
    else
      c :: replaceAllAux pat rep 0 rest

/-- Python `s.replace(pat, rep)`: replace every non-overlapping occurrence,
scanning left to right.  (Never used with an empty `pat` by the code.) -/
def replaceAll (pat rep s : List Char) : List Char :=
  replaceAllAux pat rep 0 s

/-- Python `s.replace(pat, rep, 1)`: replace the first occurrence only. -/
def replaceFirst (pat rep : List Char) : List Char → List Char
  | [] => []
  | c :: rest =>
    if pat.isPrefixOf (c :: rest) && !pat.isEmpty then
      rep ++ rest.drop (pat.length - 1)
    else
      c :: replaceFirst pat rep rest

/-- No backslash character occurs in `l`. -/
def bsFree (l : List Char) : Bool := l.all (fun c => !(c == '\\'))

theorem isPrefixOf_cons_of_ne {p c : Char} {ps rest : List Char} (h : p ≠ c) :
    (p :: ps).isPrefixOf (c :: rest) = false := by
  simp [List.isPrefixOf, h]

theorem isPrefixOf_append (p t : List Char) : p.isPrefixOf (p ++ t) = true := by
  induction p with
  | nil => simp [List.isPrefixOf]
  | cons a as ih => simp [List.isPrefixOf, ih]

theorem replaceAllAux_skip (pat rep : List Char) (a : List Char) (t : List Char) :
    replaceAllAux pat rep a.length (a ++ t) = replaceAllAux pat rep 0 t := by
  induction a with
  | nil => rfl
  | cons c rest ih => simpa [replaceAllAux] using ih

/-- Replacement fires on a leading occurrence of the pattern. -/
theorem replaceAll_pat_append (pat rep t : List Char) (h : pat ≠ []) :
    replaceAll pat rep (pat ++ t) = rep ++ replaceAll pat rep t := by
  cases pat with
  | nil => exact absurd rfl h
  | cons p ps =>
    have hpre : (p :: ps).isPrefixOf (p :: ps ++ t) = true := isPrefixOf_append _ _
    have hlen : (p :: ps).length - 1 = ps.length := by simp
    show replaceAllAux (p :: ps) rep 0 (p :: (ps ++ t)) = _
    rw [replaceAllAux]
    split
    · rw [hlen, replaceAllAux_skip]; rfl
    · rename_i hfalse
      exact absurd (by simp [hpre]) hfalse

/-- Replacement copies a head character that starts no occurrence. -/
theorem replaceAll_cons_no_match (pat rep : List Char) (c : Char) (rest : List Char)
    (h : pat.isPrefixOf (c :: rest) = false) :
    replaceAll pat rep (c :: rest) = c :: replaceAll pat rep rest := by
  show replaceAllAux pat rep 0 (c :: rest) = _
  rw [replaceAllAux, h]
  rfl

theorem replaceAll_nil (pat rep : List Char) : replaceAll pat rep [] = [] := rfl

/-- A chunk with no backslash is copied verbatim by a replacement whose
pattern starts with a backslash. -/
theorem replaceAll_bsFree_append (pat rep : List Char) {p' : List Char}
    (hpat : pat = '\\' :: p') (a t : List Char) (ha : bsFree a = true) :
    replaceAll pat rep (a ++ t) = a ++ replaceAll pat rep t := by
  induction a with
  | nil => rfl
  | cons c rest ih =>
    simp only [bsFree, List.all_cons, Bool.and_eq_true] at ha
    obtain ⟨hc', hrest⟩ := ha
    have hc : '\\' ≠ c := by
      intro he
      rw [← he] at hc'
      simp at hc'
    have hnp : pat.isPrefixOf (c :: (rest ++ t)) = false := by
      rw [hpat]; exact isPrefixOf_cons_of_ne hc
    rw [List.cons_append, replaceAll_cons_no_match pat rep c _ hnp,
      ih (by simpa [bsFree] using hrest)]
    simp

theorem containsSub_of_isPrefixOf {pat s : List Char}
    (h : pat.isPrefixOf s = true) : containsSub pat s = true := by
  cases s with
  | nil =>
    cases pat with
    | nil => rfl
    | cons p ps => simp [List.isPrefixOf] at h
  | cons c rest =>
    rw [containsSub, h]
    simp

/-- `containsSub` finds an explicitly exhibited occurrence. -/
theorem containsSub_append_pat (pat a t : List Char) :
    containsSub pat (a ++ pat ++ t) = true := by
  induction a with
  | nil =>
    simp only [List.nil_append]
    exact containsSub_of_isPrefixOf (isPrefixOf_append _ _)
  | cons c rest ih =>
    simp only [List.cons_append, List.append_assoc] at ih ⊢
    rw [containsSub, ih]
    simp

/-! ## Comment stripping (`TextProcessor.remove_comments`)

Source: `regex.sub(TexPatterns.COMMENT, "", content)` with
`COMMENT = ((?<!\\)%.*\n)`: an unescaped `%` together with the remainder
of its line and the terminating newline is deleted.  A `%` whose line
has no terminating newline matches nothing, and the lookbehind consults
the character of the *original* string preceding the matched `%`.

`stripAux skipping afterBS l` renders `regex.sub`'s single left-to-right
scan: `skipping` is true while inside a matched comment (consuming up to
and including the newline), and `afterBS` records whether the previous
character of the original string is a backslash. -/

def stripAux : Bool → Bool → List Char → List Char
  | _, _, [] => []
  | true, _, c :: rest =>
    if c == '\n' then stripAux false false rest else stripAux true false rest
  | false, b, c :: rest =>
    if c == '%' && !b && rest.contains '\n' then stripAux true false rest
    else c :: stripAux false (c == '\\') rest

/-- `TextProcessor.remove_comments`. -/
def removeComments (s : List Char) : List Char := stripAux false false s

/-- `commentFree b l`: scanning `l` (previous character a backslash iff
`b`) triggers no comment removal. -/
def commentFree : Bool → List Char → Bool
  | _, [] => true
  | b, c :: rest =>
    (!(c == '%' && !b && rest.contains '\n')) && commentFree (c == '\\') rest

theorem stripAux_of_no_newline (b : Bool) (l : List Char)
    (h : l.contains '\n' = false) : stripAux false b l = l := by
  induction l generalizing b with
  | nil => rfl
  | cons c rest ih =>
    have hrest : rest.contains '\n' = false := by
      simp only [List.contains_cons, Bool.or_eq_false_iff] at h
      exact h.2
    rw [stripAux, hrest]
    simp [ih _ hrest]

theorem commentFree_of_no_newline (b : Bool) (l : List Char)
    (h : l.contains '\n' = false) : commentFree b l = true := by
  induction l generalizing b with
  | nil => rfl
  | cons c rest ih =>
    have hrest : rest.contains '\n' = false := by
      simp only [List.contains_cons, Bool.or_eq_false_iff] at h
      exact h.2
    rw [commentFree, hrest]
    simp only [Bool.and_false, Bool.not_false, Bool.true_and]
    exact ih _ hrest

theorem stripAux_of_commentFree (b : Bool) (l : List Char)
    (h : commentFree b l = true) : stripAux false b l = l := by
  induction l generalizing b with
  | nil => rfl
  | cons c rest ih =>
    rw [commentFree, Bool.and_eq_true, Bool.not_eq_true'] at h
    rw [stripAux, h.1]
    simp [ih _ h.2]

/-- Suffix after the first newline (`[]` when no newline occurs). -/
def dropNl : List Char → List Char
  | [] => []
  | c :: rest => if c == '\n' then rest else dropNl rest

theorem stripAux_skip_eq (b : Bool) (l : List Char) :
    stripAux true b l = stripAux false false (dropNl l) := by
  induction l generalizing b with
  | nil => rfl
  | cons c rest ih =>
    rw [stripAux, dropNl]
    by_cases hc : (c == '\n') = true
    · simp [hc]
    · simp only [Bool.not_eq_true] at hc
      rw [hc]
      simp only [if_false, Bool.false_eq_true]
      exact ih _

theorem dropNl_length (l : List Char) (h : l.contains '\n' = true) :
    (dropNl l).length < l.length := by
  induction l with
  | nil => simp [List.contains] at h
  | cons c rest ih =>
    rw [dropNl]
    by_cases hc : (c == '\n') = true
    · simp [hc]
    · simp only [Bool.not_eq_true] at hc
      rw [hc]
      simp only [if_false, Bool.false_eq_true, List.length_cons]
      have hrest : rest.contains '\n' = true := by
        simp only [List.contains_cons] at h
        rcases Bool.or_eq_true_iff.mp h with h1 | h1
        · exfalso
          rw [BEq.comm] at h1
          rw [h1] at hc
          simp at hc
        · exact h1
      exact Nat.lt_trans (ih hrest) (by simp)

theorem commentFree_stripAux :
    ∀ n l (b : Bool), l.length ≤ n → commentFree b (stripAux false b l) = true := by
  intro n
  induction n with
  | zero =>
    intro l b hl
    have : l = [] := List.eq_nil_of_length_eq_zero (Nat.le_zero.mp hl)
    subst this
    rfl
  | succ n ih =>
    intro l b hl
    cases l with
    | nil => rfl
    | cons c rest =>
      have hrl : rest.length ≤ n := by
        simp only [List.length_cons] at hl
        omega
      rw [stripAux]
      by_cases hcond : (c == '%' && !b && rest.contains '\n') = true
      · rw [if_pos hcond]
        have hb : b = false := by
          rcases Bool.and_eq_true_iff.mp hcond with ⟨h1, _⟩
          rcases Bool.and_eq_true_iff.mp h1 with ⟨_, h2⟩
          simpa using h2
        have hnl : rest.contains '\n' = true :=
          (Bool.and_eq_true_iff.mp hcond).2
        rw [stripAux_skip_eq]
        subst hb
        exact ih _ false (by
          have := dropNl_length rest hnl
          omega)
      · simp only [Bool.not_eq_true] at hcond
        rw [hcond]
        simp only [if_false, Bool.false_eq_true]
        rw [commentFree, Bool.and_eq_true]
        constructor
        · by_cases hcb : (c == '%' && !b) = true
          · have hnl : rest.contains '\n' = false := by
              by_contra hn
              simp only [Bool.not_eq_false] at hn
              rw [hcb, hn] at hcond
              simp at hcond
            rw [stripAux_of_no_newline _ _ hnl, hnl]
            simp
          · simp only [Bool.not_eq_true] at hcb
            rw [hcb]
            simp
        · exact ih _ _ hrl

/-- `afterBSState b a`: whether the character preceding the continuation is
a backslash, after scanning `a` with initial state `b`. -/
def afterBSState (b : Bool) (a : List Char) : Bool :=
  a.foldl (fun _ c => c == '\\') b

/-- `noCommentStart b l`: scanning `l` never reaches an unescaped `%`. -/
def noCommentStart : Bool → List Char → Bool
  | _, [] => true
  | b, c :: rest => (!(c == '%' && !b)) && noCommentStart (c == '\\') rest

theorem stripAux_append_of_noCommentStart (a : List Char) :
    ∀ (b : Bool) (t : List Char), noCommentStart b a = true →
      stripAux false b (a ++ t) = a ++ stripAux false (afterBSState b a) t := by
  induction a with
  | nil => intro b t _; rfl
  | cons c rest ih =>
    intro b t h
    rw [noCommentStart, Bool.and_eq_true, Bool.not_eq_true'] at h
    rw [List.cons_append, stripAux]
    have hfalse : (c == '%' && !b && (rest ++ t).contains '\n') = false := by
      rw [h.1]
      simp
    rw [hfalse]
    simp only [if_false, Bool.false_eq_true]
    rw [ih _ _ h.2]
    rfl

/-- C7 counterexample: the input `a% \%⏎` contains the escaped percent
`\%` inside a comment; `remove_comments` deletes the whole comment, so
the escaped percent sign is removed, contradicting the claim that every
occurrence of `\%` in the input is still present in the output. -/
theorem c7_escaped_percent_counterexample :
    containsSub ['\\', '%'] ('a' :: '%' :: ' ' :: '\\' :: '%' :: '\n' :: []) = true ∧
    containsSub ['\\', '%']
      (removeComments ('a' :: '%' :: ' ' :: '\\' :: '%' :: '\n' :: [])) = false := by
  decide

/-- C7 (amended): comment stripping is idempotent, and an escaped percent
sign is preserved whenever the comment scan does not already consume it:
if no comment starts in the text `a` preceding the `\%`, the occurrence
survives in the output. -/
theorem c7_comment_stripping (s a b : List Char)
    (h : noCommentStart false a = true) :
    removeComments (removeComments s) = removeComments s ∧
    containsSub ['\\', '%'] (removeComments (a ++ '\\' :: '%' :: b)) = true := by
  constructor
  · exact stripAux_of_commentFree _ _
      (commentFree_stripAux s.length s false (le_refl _))
  · show containsSub ['\\', '%'] (stripAux false false (a ++ '\\' :: '%' :: b)) = true
    rw [stripAux_append_of_noCommentStart a false ('\\' :: '%' :: b) h]
    rw [stripAux]
    have h1 : ('\\' == '%' && !(afterBSState false a) &&
        ('%' :: b).contains '\n') = false := by
      simp
    rw [h1]
    simp only [if_false, Bool.false_eq_true]
    rw [stripAux]
    have h2 : ('%' == '%' && !('\\' == '\\') && b.contains '\n') = false := by
      simp
    rw [h2]
    simp only [if_false, Bool.false_eq_true]
    have : a ++ '\\' :: '%' :: stripAux false ('%' == '\\') b =
        a ++ ['\\', '%'] ++ stripAux false ('%' == '\\') b := by
      simp
    rw [this]
    exact containsSub_append_pat _ _ _

/-- C7 witness: the amended theorem applied at a concrete input. -/
theorem c7_comment_stripping_witness :
    noCommentStart false ['x', '\\', '%'] = true ∧
    (removeComments (removeComments ('u' :: '%' :: 'v' :: '\n' :: 'w' :: [])) =
        removeComments ('u' :: '%' :: 'v' :: '\n' :: 'w' :: []) ∧
      containsSub ['\\', '%']
        (removeComments (['x', '\\', '%'] ++ '\\' :: '%' :: ['y'])) = true) :=
  ⟨by decide,
    c7_comment_stripping ('u' :: '%' :: 'v' :: '\n' :: 'w' :: [])
      ['x', '\\', '%'] ['y'] (by decide)⟩

/-! ## Balanced-brace extraction (`ContentModifier._extract_braced_segment`)

The Python function raises `ValueError` when the character at
`start_index` is not `{` and when the scan runs off the end without the
depth returning to zero; otherwise it returns the text strictly between
the brace and its matching close, together with the index one past the
close.  The depth bookkeeping is over Python ints, so the embedded loop
carries an `Int` depth. -/

/-- One step of the Python depth loop, on the suffix starting at
`start_index`; returns the offset of the closing brace within the
suffix. -/
def braceLoopOff : List Char → Int → Option Nat
  | [], _ => none
  | c :: rest, depth =>
    if c == '{' then (braceLoopOff rest (depth + 1)).map (· + 1)
    else if c == '}' then
      if depth - 1 == 0 then some 0
      else (braceLoopOff rest (depth - 1)).map (· + 1)
    else (braceLoopOff rest depth).map (· + 1)

/-- `ContentModifier._extract_braced_segment`. -/
def extractBracedSegment (content : List Char) (startIndex : Nat) :
    Except String (List Char × Nat) :=
  if startIndex < content.length && ((content.drop startIndex).headD ' ' == '{') then
    match braceLoopOff (content.drop startIndex) 0 with
    | some m =>
      .ok (((content.drop (startIndex + 1)).take (startIndex + m - (startIndex + 1))),
        startIndex + m + 1)
    | none => .error "Unbalanced braces in resizebox segment"
  else .error "Expected opening brace when extracting segment"

/-- Spec-side depth contribution of one character. -/
def charDelta (c : Char) : Int := if c == '{' then 1 else if c == '}' then -1 else 0

/-- Spec-side brace balance of a string. -/
def braceBal (l : List Char) : Int := (l.map charDelta).sum

theorem braceBal_nil : braceBal [] = 0 := rfl

theorem braceBal_cons (c : Char) (l : List Char) :
    braceBal (c :: l) = charDelta c + braceBal l := by
  simp [braceBal]

/-- `SpecClose l d m`: starting from depth `d`, the character at offset
`m` of `l` is the matching closing brace — it is a `}`, the balance
through it returns the depth to zero, and the depth stays positive
strictly before it. -/
def SpecClose (l : List Char) (d : Int) (m : Nat) : Prop :=
  l[m]? = some '}' ∧ d + braceBal (l.take (m + 1)) = 0 ∧
    ∀ k, k < m → 0 < d + braceBal (l.take (k + 1))

/-- The claim's notion: `j` is the index of the brace matching the one at
index `i` of `content`. -/
def IsMatchingCloseAt (content : List Char) (i j : Nat) : Prop :=
  i < j ∧ SpecClose (content.drop i) 0 (j - i)

theorem braceBal_take_succ (c : Char) (rest : List Char) (n : Nat) :
    braceBal ((c :: rest).take (n + 1)) = charDelta c + braceBal (rest.take n) := by
  rw [List.take_succ_cons, braceBal_cons]

theorem charDelta_open {c : Char} (h : c = '{') : charDelta c = 1 := by
  simp [charDelta, h]

theorem charDelta_close {c : Char} (h : c = '}') : charDelta c = -1 := by
  simp [charDelta, h]

theorem charDelta_other {c : Char} (h1 : c ≠ '{') (h2 : c ≠ '}') :
    charDelta c = 0 := by
  simp [charDelta, h1, h2]

theorem specClose_shift_down {c : Char} {rest : List Char} {d : Int} {m : Nat}
    (h : SpecClose (c :: rest) d (m + 1)) :
    SpecClose rest (d + charDelta c) m := by
  obtain ⟨h1, h2, h3⟩ := h
  refine ⟨by simpa using h1, ?_, ?_⟩
  · rw [braceBal_take_succ] at h2
    linarith
  · intro k hk
    have := h3 (k + 1) (by omega)
    rw [braceBal_take_succ] at this
    linarith

theorem specClose_shift_up {c : Char} {rest : List Char} {d : Int} {m : Nat}
    (h : SpecClose rest (d + charDelta c) m) (hpos : 0 < d + charDelta c) :
    SpecClose (c :: rest) d (m + 1) := by
  obtain ⟨h1, h2, h3⟩ := h
  refine ⟨by simpa using h1, ?_, ?_⟩
  · rw [braceBal_take_succ]
    linarith
  · intro k hk
    cases k with
    | zero =>
      rw [braceBal_take_succ]
      simp only [List.take_zero, braceBal_nil]
      linarith
    | succ k' =>
      have := h3 k' (by omega)
      rw [braceBal_take_succ]
      linarith

theorem braceLoopOff_sound :
    ∀ (l : List Char) (d : Int) (m : Nat), 1 ≤ d →
      braceLoopOff l d = some m → SpecClose l d m := by
  intro l
  induction l with
  | nil => intro d m _ h; simp [braceLoopOff] at h
  | cons c rest ih =>
    intro d m hd h
    rw [braceLoopOff] at h
    by_cases hc : (c == '{') = true
    · rw [if_pos hc] at h
      obtain ⟨m', hm', rfl⟩ := Option.map_eq_some'.mp h
      have hs := ih (d + 1) m' (by omega) hm'
      have hδ : charDelta c = 1 := charDelta_open (by simpa using hc)
      refine specClose_shift_up ?_ (by omega)
      rw [hδ]
      exact hs
    · have hcne : c ≠ '{' := by
        intro he; exact hc (by simp [he])
      rw [if_neg (by simpa using hc)] at h
      by_cases hc2 : (c == '}') = true
      · have hδ : charDelta c = -1 := charDelta_close (by simpa using hc2)
        rw [if_pos hc2] at h
        by_cases hd1 : (d - 1 == 0) = true
        · rw [if_pos hd1] at h
          have hm : m = 0 := by cases h; rfl
          subst hm
          have hdval : d = 1 := by
            have := beq_iff_eq.mp hd1
            omega
          refine ⟨by simp [beq_iff_eq.mp hc2], ?_, ?_⟩
          · rw [braceBal_take_succ]
            simp only [List.take_zero, braceBal_nil]
            rw [hδ]
            omega
          · intro k hk; omega
        · rw [if_neg (by simpa using hd1)] at h
          obtain ⟨m', hm', rfl⟩ := Option.map_eq_some'.mp h
          have hdne : ¬ d - 1 = 0 := by
            intro he
            rw [show (d - 1 == 0) = decide (d - 1 = 0) from rfl] at hd1
            simp [he] at hd1
          have hs := ih (d - 1) m' (by omega) hm'
          refine specClose_shift_up ?_ (by omega)
          rw [hδ]
          have heq : d + -1 = d - 1 := by ring
          rw [heq]
          exact hs
      · have hc2ne : c ≠ '}' := by
          intro he; exact hc2 (by simp [he])
        have hδ : charDelta c = 0 := charDelta_other hcne hc2ne
        rw [if_neg (by simpa using hc2)] at h
        obtain ⟨m', hm', rfl⟩ := Option.map_eq_some'.mp h
        have hs := ih d m' hd hm'
        refine specClose_shift_up ?_ (by omega)
        rw [hδ]
        simpa using hs

theorem braceLoopOff_complete :
    ∀ (l : List Char) (d : Int) (m : Nat), 1 ≤ d →
      SpecClose l d m → braceLoopOff l d = some m := by
  intro l
  induction l with
  | nil =>
    intro d m _ h
    obtain ⟨h1, _, _⟩ := h
    simp at h1
  | cons c rest ih =>
    intro d m hd h
    cases m with
    | zero =>
      obtain ⟨h1, h2, _⟩ := h
      simp only [List.getElem?_cons_zero, Option.some.injEq] at h1
      subst h1
      rw [braceBal_take_succ] at h2
      simp only [List.take_zero, braceBal_nil] at h2
      rw [charDelta_close rfl] at h2
      have hdval : d = 1 := by omega
      subst hdval
      rfl
    | succ m' =>
      have hpos0 := h.2.2 0 (Nat.succ_pos _)
      rw [braceBal_take_succ] at hpos0
      simp only [List.take_zero, braceBal_nil, add_zero] at hpos0
      have hshift := specClose_shift_down h
      rw [braceLoopOff]
      by_cases hc : (c == '{') = true
      · rw [if_pos hc]
        rw [charDelta_open (by simpa using hc)] at hshift
        rw [ih (d + 1) m' (by omega) hshift]
        rfl
      · have hcne : c ≠ '{' := by
          intro he; exact hc (by simp [he])
        rw [if_neg (by simpa using hc)]
        by_cases hc2 : (c == '}') = true
        · rw [if_pos hc2]
          rw [charDelta_close (by simpa using hc2)] at hshift hpos0
          have hdge : 2 ≤ d := by omega
          rw [if_neg (by
            intro he
            have := beq_iff_eq.mp he
            omega)]
          have heq : d + -1 = d - 1 := by ring
          rw [heq] at hshift
          rw [ih (d - 1) m' (by omega) hshift]
          rfl
        · have hc2ne : c ≠ '}' := by
            intro he; exact hc2 (by simp [he])
          rw [if_neg (by simpa using hc2)]
          rw [charDelta_other hcne hc2ne, add_zero] at hshift
          rw [ih d m' hd hshift]
          rfl

theorem drop_eq_cons_of_getElem_open {content : List Char} {i : Nat}
    (hi : content[i]? = some '{') :
    i < content.length ∧ ∃ restl, content.drop i = '{' :: restl := by
  have hlen : i < content.length := by
    by_contra hge
    rw [List.getElem?_eq_none (by omega)] at hi
    cases hi
  refine ⟨hlen, ?_⟩
  have h0 : (content.drop i)[0]? = some '{' := by
    rw [List.getElem?_drop]
    simpa using hi
  cases hdrop : content.drop i with
  | nil => rw [hdrop] at h0; cases h0
  | cons a as =>
    rw [hdrop] at h0
    simp only [List.getElem?_cons_zero, Option.some.injEq] at h0
    exact ⟨as, by rw [h0]⟩

theorem braceLoopOff_drop_eq_none_iff {content : List Char} {i : Nat}
    (hi : content[i]? = some '{') :
    braceLoopOff (content.drop i) 0 = none ↔
      ¬ ∃ j, IsMatchingCloseAt content i j := by
  obtain ⟨hlen, restl, hdrop⟩ := drop_eq_cons_of_getElem_open hi
  constructor
  · rintro hnone ⟨j, hij, hspec⟩
    rw [hdrop] at hspec hnone
    have hji : j - i = (j - i - 1) + 1 := by omega
    rw [hji] at hspec
    have hshift := specClose_shift_down hspec
    rw [charDelta_open rfl] at hshift
    have hcomp := braceLoopOff_complete restl (0 + 1) (j - i - 1) (by omega) hshift
    rw [braceLoopOff] at hnone
    simp only [beq_self_eq_true, if_true, hcomp, Option.map_some'] at hnone
    cases hnone
  · intro hnex
    cases hloop : braceLoopOff (content.drop i) 0 with
    | none => rfl
    | some m =>
      exfalso
      rw [hdrop, braceLoopOff] at hloop
      simp only [beq_self_eq_true, if_true] at hloop
      obtain ⟨m', hm', rfl⟩ := Option.map_eq_some'.mp hloop
      have hs := braceLoopOff_sound restl (0 + 1) m' (by omega) hm'
      have hup : SpecClose ('{' :: restl) 0 (m' + 1) := by
        refine specClose_shift_up ?_ ?_
        · rw [charDelta_open rfl]; exact hs
        · rw [charDelta_open rfl]; omega
      exact hnex ⟨i + (m' + 1), by omega,
        by rw [hdrop]; simpa using hup⟩

instance (l : List Char) (d : Int) (m : Nat) : Decidable (SpecClose l d m) := by
  unfold SpecClose
  infer_instance

instance (content : List Char) (i j : Nat) :
    Decidable (IsMatchingCloseAt content i j) := by
  unfold IsMatchingCloseAt
  infer_instance

/-- C9: when the character at index `i` is `{` and a matching closing
brace exists, `_extract_braced_segment` returns the enclosed text and the
index one past the close; and for every index, its `ValueError` branches
are taken exactly when the character there is not `{` or the braces are
unbalanced. -/
theorem c9_brace_extraction (content : List Char) (i j : Nat)
    (hi : content[i]? = some '{') (hj : IsMatchingCloseAt content i j) :
    extractBracedSegment content i =
      .ok ((content.drop (i + 1)).take (j - (i + 1)), j + 1) ∧
    ∀ i', (∃ e, extractBracedSegment content i' = .error e) ↔
      (content[i']? ≠ some '{' ∨ ¬ ∃ j', IsMatchingCloseAt content i' j') := by
  constructor
  · obtain ⟨hlen, restl, hdrop⟩ := drop_eq_cons_of_getElem_open hi
    obtain ⟨hij, hspec⟩ := hj
    rw [hdrop] at hspec
    have hji : j - i = (j - i - 1) + 1 := by omega
    rw [hji] at hspec
    have hshift := specClose_shift_down hspec
    rw [charDelta_open rfl] at hshift
    have hcomp := braceLoopOff_complete restl (0 + 1) (j - i - 1) (by omega) hshift
    have hloop : braceLoopOff ('{' :: restl) 0 = some (j - i - 1 + 1) := by
      rw [braceLoopOff]
      simp only [beq_self_eq_true, if_true, hcomp, Option.map_some']
    rw [extractBracedSegment,
      if_pos (by rw [hdrop]; simp [hlen])]
    rw [hdrop, hloop]
    have h1 : i + (j - i - 1 + 1) - (i + 1) = j - (i + 1) := by omega
    have h2 : i + (j - i - 1 + 1) + 1 = j + 1 := by omega
    simp only [h1, h2]
  · intro i'
    by_cases hguard : content[i']? = some '{'
    · obtain ⟨hlen, restl, hdrop⟩ := drop_eq_cons_of_getElem_open hguard
      rw [extractBracedSegment, if_pos (by rw [hdrop]; simp [hlen])]
      constructor
      · rintro ⟨e, he⟩
        cases hloop : braceLoopOff (content.drop i') 0 with
        | none =>
          exact Or.inr ((braceLoopOff_drop_eq_none_iff hguard).mp hloop)
        | some m => rw [hloop] at he; cases he
      · rintro (hne | hnex)
        · exact absurd hguard hne
        · rw [(braceLoopOff_drop_eq_none_iff hguard).mpr hnex]
          exact ⟨_, rfl⟩
    · rw [extractBracedSegment, if_neg (by
        intro hcond
        rw [Bool.and_eq_true] at hcond
        obtain ⟨hlt, hhead⟩ := hcond
        have hlt' : i' < content.length := by
          simpa using hlt
        apply hguard
        cases hdrop : content.drop i' with
        | nil =>
          have : content.length ≤ i' := by
            have := congrArg List.length hdrop
            simp only [List.length_drop, List.length_nil] at this
            omega
          omega
        | cons a as =>
          rw [hdrop] at hhead
          simp only [List.headD_cons] at hhead
          have ha : a = '{' := by simpa using hhead
          have h0 : (content.drop i')[0]? = content[i']? := by
            rw [List.getElem?_drop]
            simp
          rw [← h0, hdrop, ha]
          simp)]
      exact ⟨fun _ => Or.inl hguard, fun _ => ⟨_, rfl⟩⟩

/-- C9 witness: the theorem applied to `x{ab{c}d}y` at index 1, whose
matching close sits at index 8. -/
theorem c9_brace_extraction_witness :
    (['x', '\x7b', 'a', 'b', '\x7b', 'c', '\x7d', 'd', '\x7d', 'y'][1]? =
      some '\x7b') ∧
    IsMatchingCloseAt ['x', '\x7b', 'a', 'b', '\x7b', 'c', '\x7d', 'd', '\x7d', 'y'] 1 8 ∧
    (extractBracedSegment ['x', '\x7b', 'a', 'b', '\x7b', 'c', '\x7d', 'd', '\x7d', 'y'] 1 =
        .ok ((['x', '\x7b', 'a', 'b', '\x7b', 'c', '\x7d', 'd', '\x7d', 'y'].drop 2).take 6, 9) ∧
      ∀ i', (∃ e, extractBracedSegment
            ['x', '\x7b', 'a', 'b', '\x7b', 'c', '\x7d', 'd', '\x7d', 'y'] i' = .error e) ↔
        (['x', '\x7b', 'a', 'b', '\x7b', 'c', '\x7d', 'd', '\x7d', 'y'][i']? ≠ some '\x7b' ∨
          ¬ ∃ j', IsMatchingCloseAt
            ['x', '\x7b', 'a', 'b', '\x7b', 'c', '\x7d', 'd', '\x7d', 'y'] i' j')) :=
  ⟨by decide, by decide,
    c9_brace_extraction _ 1 8 (by decide) (by decide)⟩

/-! ## Sub-figure package detection (`PatternMatcher.find_figure_package`)

`constants.TexPatterns` in the sources declares `SUBFIG_PACKAGE`,
`SUBFIGURE_PACKAGE` and `SUBFIG_ENV` as literal-alternation regexes; the
constants `SUBCAPTION_PACKAGE`, `SUBFIGURE_COMMAND` and
`SUBFIGURE_ENVIRONMENT` referenced by `find_figure_package` are not
present in the snapshot and are modelled from the spec below.  Every
pattern is a literal (or an alternation of two literals), so
`regex.search` is substring containment. -/

def subfigPackagePat : List Char := "\\usepackage{subfig}".toList

def subfigurePackagePat : List Char := "\\usepackage{subfigure}".toList

def beginSubfigPat : List Char := "\\begin{subfig}".toList

def subfloatPat : List Char := "\\subfloat".toList

/-- Modelled from the spec: the missing `TexPatterns.SUBCAPTION_PACKAGE`
constant — explicit usage of the subcaption package. -/
def subcaptionPackagePat : List Char := "\\usepackage{subcaption}".toList

/-- Modelled from the spec: the missing `TexPatterns.SUBFIGURE_COMMAND`
constant — usage of the `\subfigure` command. -/
def subfigureCommandPat : List Char := "\\subfigure".toList

/-- Modelled from the spec: the missing `TexPatterns.SUBFIGURE_ENVIRONMENT`
constant — a bare subcaption-style `subfigure` environment. -/
def subfigureEnvironmentPat : List Char := "\\begin{subfigure}".toList

/-- `PatternMatcher.find_figure_package`. -/
def findFigurePackage (content : List Char) : Option String :=
  if containsSub subcaptionPackagePat content then some "subcaption"
  else if containsSub subfigPackagePat content
      || containsSub beginSubfigPat content
      || containsSub subfloatPat content then some "subfig"
  else if containsSub subfigurePackagePat content
      || containsSub subfigureCommandPat content then some "subfigure"
  else if containsSub subfigureEnvironmentPat content then some "subcaption"
  else none

/-- Spec-side usage predicates, in the spec's vocabulary. -/
def subcaptionPackageUsed (content : List Char) : Bool :=
  containsSub subcaptionPackagePat content

def subfigUsed (content : List Char) : Bool :=
  containsSub subfigPackagePat content || containsSub beginSubfigPat content
    || containsSub subfloatPat content

def subfigureUsed (content : List Char) : Bool :=
  containsSub subfigurePackagePat content
    || containsSub subfigureCommandPat content

def bareSubfigureEnvironment (content : List Char) : Bool :=
  containsSub subfigureEnvironmentPat content

/-- C4: the detected package is drawn from the fixed enumeration and is
resolved by priority — explicit subcaption usage, then subfig usage, then
subfigure usage, then a bare subfigure environment; otherwise none. -/
theorem c4_figure_package_priority (content : List Char) :
    (findFigurePackage content = none ∨
      findFigurePackage content ∈
        [some "subfig", some "subfigure", some "subcaption"]) ∧
    (subcaptionPackageUsed content = true →
      findFigurePackage content = some "subcaption") ∧
    (subcaptionPackageUsed content = false → subfigUsed content = true →
      findFigurePackage content = some "subfig") ∧
    (subcaptionPackageUsed content = false → subfigUsed content = false →
      subfigureUsed content = true →
      findFigurePackage content = some "subfigure") ∧
    (subcaptionPackageUsed content = false → subfigUsed content = false →
      subfigureUsed content = false → bareSubfigureEnvironment content = true →
      findFigurePackage content = some "subcaption") ∧
    (subcaptionPackageUsed content = false → subfigUsed content = false →
      subfigureUsed content = false →
      bareSubfigureEnvironment content = false →
      findFigurePackage content = none) := by
  refine ⟨?_, ?_, ?_, ?_, ?_, ?_⟩
  · rw [findFigurePackage]
    split
    · simp
    · split
      · simp
      · split
        · simp
        · split
          · simp
          · simp
  · intro h
    rw [findFigurePackage, if_pos (by rwa [subcaptionPackageUsed] at h)]
  · intro h0 h1
    rw [subcaptionPackageUsed] at h0
    rw [findFigurePackage, if_neg (by simp [h0]),
      if_pos (by rwa [subfigUsed] at h1)]
  · intro h0 h1 h2
    rw [subcaptionPackageUsed] at h0
    rw [subfigUsed, Bool.or_eq_false_iff, Bool.or_eq_false_iff] at h1
    rw [findFigurePackage, if_neg (by simp [h0]),
      if_neg (by simp [h1.1.1, h1.1.2, h1.2]),
      if_pos (by rwa [subfigureUsed] at h2)]
  · intro h0 h1 h2 h3
    rw [subcaptionPackageUsed] at h0
    rw [subfigUsed, Bool.or_eq_false_iff, Bool.or_eq_false_iff] at h1
    rw [subfigureUsed, Bool.or_eq_false_iff] at h2
    rw [findFigurePackage, if_neg (by simp [h0]),
      if_neg (by simp [h1.1.1, h1.1.2, h1.2]),
      if_neg (by simp [h2.1, h2.2]),
      if_pos (by rwa [bareSubfigureEnvironment] at h3)]
  · intro h0 h1 h2 h3
    rw [subcaptionPackageUsed] at h0
    rw [subfigUsed, Bool.or_eq_false_iff, Bool.or_eq_false_iff] at h1
    rw [subfigureUsed, Bool.or_eq_false_iff] at h2
    rw [bareSubfigureEnvironment] at h3
    rw [findFigurePackage, if_neg (by simp [h0]),
      if_neg (by simp [h1.1.1, h1.1.2, h1.2]),
      if_neg (by simp [h2.1, h2.2]), if_neg (by simp [h3])]

/-- C4 witness: a document that uses only the `subfigure` environment is
detected as subcaption (lowest-priority branch). -/
theorem c4_figure_package_priority_witness :
    subcaptionPackageUsed "\\begin\x7bsubfigure\x7d\x7b0.5\\textwidth\x7dx\\end\x7bsubfigure\x7d".toList = false ∧
    subfigUsed "\\begin\x7bsubfigure\x7d\x7b0.5\\textwidth\x7dx\\end\x7bsubfigure\x7d".toList = false ∧
    subfigureUsed "\\begin\x7bsubfigure\x7d\x7b0.5\\textwidth\x7dx\\end\x7bsubfigure\x7d".toList = false ∧
    bareSubfigureEnvironment "\\begin\x7bsubfigure\x7d\x7b0.5\\textwidth\x7dx\\end\x7bsubfigure\x7d".toList = true ∧
    findFigurePackage "\\begin\x7bsubfigure\x7d\x7b0.5\\textwidth\x7dx\\end\x7bsubfigure\x7d".toList =
      some "subcaption" :=
  ⟨by decide, by decide, by decide, by decide,
    (c4_figure_package_priority _).2.2.2.2.1 (by decide) (by decide)
      (by decide) (by decide)⟩

/-! ## Caption locale synchronisation
(`CaptionStyle.from_locale`, `LatexToWordConverter.__init__`,
`LatexToWordConverter._sync_caption_locale`)

The snapshot's `config.py` stores the Chinese caption strings in a
mojibake double-encoding; the unit tests pin the intended code points
(`图`, `表`, `：`), which are used here. -/

structure CaptionStyle where
  figureTemplate : String
  tableTemplate : String
  figureTitle : String
  tableTitle : String
  figPrefix : List String
  tblPrefix : List String
  titleDelim : String
deriving DecidableEq

/-- `CaptionStyle.default`. -/
def CaptionStyle.defaultStyle : CaptionStyle :=
  { figureTemplate := "Figure $$i$$$$titleDelim$$ $$t$$"
    tableTemplate := "Table $$i$$$$titleDelim$$ $$t$$"
    figureTitle := ""
    tableTitle := ""
    figPrefix := ["Figure", "Figures"]
    tblPrefix := ["Table", "Tables"]
    titleDelim := ":" }

/-- Python `str.lower` on the ASCII locale hints used here. -/
def pyLower (s : List Char) : List Char := s.map Char.toLower

/-- Python `str.strip` (whitespace trim on both ends). -/
def pyStrip (s : List Char) : List Char :=
  ((s.dropWhile Char.isWhitespace).reverse.dropWhile Char.isWhitespace).reverse

/-- `CaptionStyle.from_locale`. -/
def CaptionStyle.fromLocale (locale : Option (List Char)) : CaptionStyle :=
  match locale with
  | none => CaptionStyle.defaultStyle
  | some loc =>
    if pyStrip loc = [] ∨
        pyLower loc ∈ ["en".toList, "en-us".toList, "en-gb".toList] then
      CaptionStyle.defaultStyle
    else if pyLower loc ∈ ["zh".toList, "zh-cn".toList, "zh-hans".toList,
        "zh-sg".toList, "zh-tw".toList] then
      { figureTemplate := "图 $$i$$$$titleDelim$$ $$t$$"
        tableTemplate := "表 $$i$$$$titleDelim$$ $$t$$"
        figureTitle := ""
        tableTitle := ""
        figPrefix := ["图", "图"]
        tblPrefix := ["表", "表"]
        titleDelim := "：" }
    else CaptionStyle.defaultStyle

/-- `CaptionStyle.is_default`. -/
def CaptionStyle.isDefaultStyle (s : CaptionStyle) : Bool :=
  s = CaptionStyle.defaultStyle

/-- Caption style installed by `LatexToWordConverter.__init__`: the
configuration starts from the default style, and an explicitly supplied
locale is stripped and applied through `from_locale`. -/
def initCaptionStyle (captionLocale : Option (List Char)) : CaptionStyle :=
  match captionLocale with
  | none => CaptionStyle.defaultStyle
  | some loc => CaptionStyle.fromLocale (some (pyStrip loc))

/-- `LatexToWordConverter._sync_caption_locale`: `explicit` is the
`_caption_locale_explicit` flag recorded by the constructor. -/
def syncCaptionLocale (explicit : Bool) (containsChinese : Bool)
    (style : CaptionStyle) : CaptionStyle :=
  if explicit then style
  else if containsChinese && style.isDefaultStyle then
    CaptionStyle.fromLocale (some "zh".toList)
  else style

/-- C10: with no explicit caption locale, a default style is switched to
the Chinese locale style exactly when the Chinese-content flag is set;
with an explicitly supplied locale, content detection never changes the
style.  The Chinese style is a real change (distinct from the default). -/
theorem c10_caption_locale_sync (captionLocale : Option (List Char))
    (containsChinese : Bool) (style : CaptionStyle)
    (hexp : captionLocale.isSome = true) :
    (syncCaptionLocale captionLocale.isSome containsChinese style = style) ∧
    (∀ chinese style',
      syncCaptionLocale (none : Option (List Char)).isSome chinese style' =
        if chinese && style'.isDefaultStyle then
          CaptionStyle.fromLocale (some "zh".toList)
        else style') ∧
    CaptionStyle.fromLocale (some "zh".toList) ≠ CaptionStyle.defaultStyle ∧
    syncCaptionLocale false true CaptionStyle.defaultStyle =
      CaptionStyle.fromLocale (some "zh".toList) := by
  refine ⟨?_, ?_, ?_, ?_⟩
  · rw [syncCaptionLocale, if_pos hexp]
  · intro chinese style'
    rw [syncCaptionLocale]
    simp
  · decide
  · rw [syncCaptionLocale]
    simp [CaptionStyle.isDefaultStyle]

/-- C10 witness: the theorem applied with an explicit `"en"` locale. -/
theorem c10_caption_locale_sync_witness :
    (some "en".toList : Option (List Char)).isSome = true ∧
    (syncCaptionLocale (some "en".toList : Option (List Char)).isSome true
        (CaptionStyle.fromLocale (some "zh".toList)) =
      CaptionStyle.fromLocale (some "zh".toList) ∧
    (∀ chinese style',
      syncCaptionLocale (none : Option (List Char)).isSome chinese style' =
        if chinese && style'.isDefaultStyle then
          CaptionStyle.fromLocale (some "zh".toList)
        else style') ∧
    CaptionStyle.fromLocale (some "zh".toList) ≠ CaptionStyle.defaultStyle ∧
    syncCaptionLocale false true CaptionStyle.defaultStyle =
      CaptionStyle.fromLocale (some "zh".toList)) :=
  ⟨by decide,
    c10_caption_locale_sync (some "en".toList) true
      (CaptionStyle.fromLocale (some "zh".toList)) (by decide)⟩

/-! ## More toolkit: occurrence decompositions, line splitting -/

theorem containsSub_cons_false {pat : List Char} {c : Char} {rest : List Char}
    (h : containsSub pat (c :: rest) = false) : containsSub pat rest = false := by
  rw [containsSub, Bool.or_eq_false_iff] at h
  exact h.2

theorem exists_decomp_of_containsSub :
    ∀ {pat s : List Char}, containsSub pat s = true →
      ∃ x y, s = x ++ pat ++ y := by
  intro pat s
  induction s with
  | nil =>
    intro h
    rw [containsSub] at h
    have : pat = [] := by
      cases pat with
      | nil => rfl
      | cons p ps => simp [List.isEmpty] at h
    exact ⟨[], [], by simp [this]⟩
  | cons c rest ih =>
    intro h
    rw [containsSub, Bool.or_eq_true] at h
    rcases h with h | h
    · obtain ⟨y, hy⟩ := List.isPrefixOf_iff_prefix.mp h
      exact ⟨[], y, by simp [← hy]⟩
    · obtain ⟨x, y, hxy⟩ := ih h
      exact ⟨c :: x, y, by simp [hxy]⟩

/-- Python `str.splitlines` restricted to `\n` separators (the bodies
handled by the table normalizer are quantified over newline-only
strings). -/
def splitLinesNl : List Char → List (List Char)
  | [] => []
  | c :: rest =>
    if c == '\n' then [] :: splitLinesNl rest
    else
      match splitLinesNl rest with
      | [] => [[c]]
      | l :: ls => (c :: l) :: ls

theorem splitLines_head_prefix :
    ∀ {s l : List Char} {ls : List (List Char)},
      splitLinesNl s = l :: ls → ∃ b, s = l ++ b := by
  intro s
  induction s with
  | nil => intro l ls h; cases h
  | cons c rest ih =>
    intro l ls h
    rw [splitLinesNl] at h
    by_cases hc : (c == '\n') = true
    · rw [if_pos hc] at h
      cases h
      exact ⟨c :: rest, rfl⟩
    · rw [if_neg hc] at h
      cases hrec : splitLinesNl rest with
      | nil =>
        rw [hrec] at h
        cases h
        exact ⟨rest, rfl⟩
      | cons l' ls' =>
        rw [hrec] at h
        cases h
        obtain ⟨b, hb⟩ := ih hrec
        exact ⟨b, by rw [List.cons_append, ← hb]⟩

theorem splitLines_mem_infix :
    ∀ {s line : List Char}, line ∈ splitLinesNl s →
      ∃ a b, s = a ++ line ++ b := by
  intro s
  induction s with
  | nil => intro line h; cases h
  | cons c rest ih =>
    intro line h
    rw [splitLinesNl] at h
    by_cases hc : (c == '\n') = true
    · rw [if_pos hc] at h
      cases h with
      | head => exact ⟨[], c :: rest, rfl⟩
      | tail _ hmem =>
        obtain ⟨a, b, hab⟩ := ih hmem
        exact ⟨c :: a, b, by rw [hab]; rfl⟩
    · rw [if_neg hc] at h
      cases hrec : splitLinesNl rest with
      | nil =>
        rw [hrec] at h
        cases h with
        | head => exact ⟨[], rest, rfl⟩
        | tail _ hmem => cases hmem
      | cons l' ls' =>
        rw [hrec] at h
        cases h with
        | head =>
          obtain ⟨b, hb⟩ := splitLines_head_prefix hrec
          exact ⟨[], b, by rw [hb]; rfl⟩
        | tail _ hmem =>
          obtain ⟨a, b, hab⟩ := ih (by rw [hrec]; exact List.mem_cons_of_mem _ hmem)
          exact ⟨c :: a, b, by rw [hab]; rfl⟩

/-- A pattern absent from the joined string is absent from every line. -/
theorem splitLines_containsSub_false {pat s line : List Char}
    (hs : containsSub pat s = false) (hmem : line ∈ splitLinesNl s) :
    containsSub pat line = false := by
  by_contra hcon
  rw [Bool.not_eq_false] at hcon
  obtain ⟨x, y, hxy⟩ := exists_decomp_of_containsSub hcon
  obtain ⟨a, b, hab⟩ := splitLines_mem_infix hmem
  rw [hab, hxy] at hs
  have : containsSub pat (a ++ (x ++ pat ++ y) ++ b) = true := by
    have := containsSub_append_pat pat (a ++ x) (y ++ b)
    simpa [List.append_assoc] using this
  rw [this] at hs
  cases hs

/-! ## Table rule normalization
(`ContentModifier._normalize_table_rules`,
`ContentModifier._convert_booktabs_rules`,
`ContentModifier._apply_three_line_table_default`) -/

/-- Python `next((i for i, x in enumerate(l) if p x), None)`. -/
def pyFindIdx (p : α → Bool) : List α → Option Nat
  | [] => none
  | x :: xs => if p x then some 0 else (pyFindIdx p xs).map (· + 1)

/-- Python `list.insert` (index clamped to the length). -/
def pyInsert : Nat → α → List α → List α
  | 0, a, l => a :: l
  | _ + 1, a, [] => [a]
  | n + 1, a, c :: rest => c :: pyInsert n a rest

theorem pyFindIdx_lt_length {p : α → Bool} :
    ∀ {l : List α} {i : Nat}, pyFindIdx p l = some i → i < l.length := by
  intro l
  induction l with
  | nil => intro i h; cases h
  | cons x xs ih =>
    intro i h
    rw [pyFindIdx] at h
    by_cases hp : p x = true
    · rw [if_pos hp] at h
      cases h
      simp
    · rw [if_neg hp] at h
      obtain ⟨i', hi', rfl⟩ := Option.map_eq_some'.mp h
      have := ih hi'
      simp only [List.length_cons]
      omega

theorem pyFindIdx_take_false {p : α → Bool} :
    ∀ {l : List α} {i : Nat}, pyFindIdx p l = some i →
      ∀ x ∈ l.take i, p x = false := by
  intro l
  induction l with
  | nil => intro i h; cases h
  | cons x xs ih =>
    intro i h
    rw [pyFindIdx] at h
    by_cases hp : p x = true
    · rw [if_pos hp] at h
      cases h
      simp
    · rw [if_neg hp] at h
      obtain ⟨i', hi', rfl⟩ := Option.map_eq_some'.mp h
      intro y hy
      rw [List.take_succ_cons] at hy
      cases hy with
      | head => simpa using hp
      | tail _ hmem => exact ih hi' y hmem

theorem pyFindIdx_getD {p : α → Bool} (d : α) :
    ∀ {l : List α} {i : Nat}, pyFindIdx p l = some i → p (l.getD i d) = true := by
  intro l
  induction l with
  | nil => intro i h; cases h
  | cons x xs ih =>
    intro i h
    rw [pyFindIdx] at h
    by_cases hp : p x = true
    · rw [if_pos hp] at h
      cases h
      simpa using hp
    · rw [if_neg hp] at h
      obtain ⟨i', hi', rfl⟩ := Option.map_eq_some'.mp h
      simpa using ih hi'

theorem pyInsert_at_append (a : List α) (x : α) (b : List α) :
    pyInsert a.length x (a ++ b) = a ++ x :: b := by
  induction a with
  | nil => rfl
  | cons c rest ih => simpa [pyInsert] using ih

/-- The `\hline` token inserted by the three-line default. -/
def hlineTok : List Char := "\\hline".toList

/-- The row-terminator token `\\`. -/
def rowTok : List Char := ['\\', '\\']

/-- `ContentModifier._apply_three_line_table_default`.  `splitlines` is
modelled for newline-only bodies; blankness of a line is
`(pyStrip l).isEmpty`, mirroring Python's `line.strip()` truthiness. -/
def applyThreeLineTableDefault (body : List Char) : List Char :=
  let lines := splitLinesNl body
  if lines.isEmpty then body
  else
    match pyFindIdx (fun l => !(pyStrip l).isEmpty) lines with
    | none => body
    | some firstIdx =>
      let indent := (lines.getD firstIdx []).takeWhile Char.isWhitespace
      let rule := indent ++ hlineTok
      let headerIdx? :=
        (pyFindIdx (fun l => containsSub rowTok l) (lines.drop firstIdx)).map
          (· + firstIdx)
      let lines1 := pyInsert firstIdx rule lines
      let lines2 :=
        match headerIdx? with
        | some headerIdx => pyInsert (headerIdx + 2) rule lines1
        | none => lines1
      let rev := lines2.reverse
      let trailingRev := rev.takeWhile (fun l => (pyStrip l).isEmpty)
      let kept := (rev.dropWhile (fun l => (pyStrip l).isEmpty)).reverse
      let finalLines := kept ++ [rule] ++ trailingRev.reverse
      let res := List.intercalate ['\n'] finalLines
      if body.getLast? == some '\n' then res ++ ['\n'] else res

/-- Extension matcher for the booktabs rule patterns: consumes the
optional `[...]` group (greedy, content free of `]`) and, when
`reqBrace`, a mandatory `{...}` group with nonempty `}`-free content;
returns the number of characters consumed, or `none` when the mandatory
group cannot match (the regex then fails at this position). -/
def matchRuleExt (reqBrace : Bool) (l : List Char) : Option Nat :=
  let bkl1 : Nat × List Char :=
    match l with
    | '[' :: t =>
      match pyFindIdx (fun c => c == ']') t with
      | some d => (d + 2, t.drop (d + 1))
      | none => (0, l)
    | _ => (0, l)
  if reqBrace then
    match bkl1.2 with
    | '{' :: t2 =>
      match pyFindIdx (fun c => c == '}') t2 with
      | some d => if d = 0 then none else some (bkl1.1 + d + 2)
      | none => none
    | _ => none
  else some bkl1.1

/-- One `regex.sub` for a booktabs rule pattern `tag(?:\[[^\]]*\])?`
(plus `\{[^}]+\}` when `reqBrace`): left-to-right scan, non-overlapping
matches replaced by `rep`; on a failed match the scan restarts one
character later.  The `Nat` argument skips characters already consumed
by a match. -/
def subRuleAux (tag rep : List Char) (reqBrace : Bool) : Nat → List Char → List Char
  | _ + 1, [] => []
  | k + 1, _ :: rest => subRuleAux tag rep reqBrace k rest
  | 0, [] => []
  | 0, c :: rest =>
    if tag.isPrefixOf (c :: rest) then
      match matchRuleExt reqBrace ((c :: rest).drop tag.length) with
      | some ext => rep ++ subRuleAux tag rep reqBrace (tag.length - 1 + ext) rest
      | none => c :: subRuleAux tag rep reqBrace 0 rest
    else c :: subRuleAux tag rep reqBrace 0 rest

def subRule (tag rep : List Char) (reqBrace : Bool) (s : List Char) : List Char :=
  subRuleAux tag rep reqBrace 0 s

/-- `ContentModifier._convert_booktabs_rules`. -/
def convertBooktabsRules (body : List Char) : List Char :=
  let r1 := subRule "\\toprule".toList hlineTok false body
  let r2 := subRule "\\midrule".toList hlineTok false r1
  let r3 := subRule "\\bottomrule".toList hlineTok false r2
  let r4 := subRule "\\cmidrule".toList hlineTok true r3
  subRule "\\addlinespace".toList [] false r4

/-- `regex.search(r"\\(hline|cline)", s)` of `_normalize_table_rules`. -/
def hasRuleMacro (s : List Char) : Bool :=
  containsSub "\\hline".toList s || containsSub "\\cline".toList s

/-- The body replacement `_normalize_table_rules` applies to one
tabular-like environment: booktabs conversion first, then the three-line
default when no rule marker is left. -/
def normalizeTableBody (body : List Char) : List Char :=
  let transformed := convertBooktabsRules body
  if !hasRuleMacro transformed then applyThreeLineTableDefault transformed
  else transformed

theorem pyStrip_eq_nil_iff (l : List Char) :
    pyStrip l = [] ↔ l.all Char.isWhitespace = true := by
  rw [pyStrip]
  constructor
  · intro h
    have h1 : (l.dropWhile Char.isWhitespace).reverse.dropWhile Char.isWhitespace = [] := by
      rwa [List.reverse_eq_nil_iff] at h
    rw [List.dropWhile_eq_nil_iff] at h1
    have h2 : ∀ x ∈ l.dropWhile Char.isWhitespace, Char.isWhitespace x := by
      intro x hx
      exact h1 x (List.mem_reverse.mpr hx)
    rw [List.all_eq_true]
    intro x hx
    rcases List.mem_append.mp
        (by rw [List.takeWhile_append_dropWhile (p := Char.isWhitespace)]; exact hx) with
      hx1 | hx2
    · exact List.mem_takeWhile_imp hx1
    · exact h2 x hx2
  · intro h
    have h1 : l.dropWhile Char.isWhitespace = [] := by
      rw [List.dropWhile_eq_nil_iff]
      intro x hx
      exact (List.all_eq_true.mp h) x hx
    rw [h1]
    rfl

theorem takeWhile_append_blocked {p : α → Bool} {r : α} (h : p r = false)
    (x y : List α) : (x ++ r :: y).takeWhile p = x.takeWhile p := by
  induction x with
  | nil => simp [List.takeWhile_cons, h]
  | cons c rest ih =>
    rw [List.cons_append, List.takeWhile_cons, List.takeWhile_cons]
    by_cases hc : p c = true
    · rw [hc, ih]
    · simp only [Bool.not_eq_true] at hc
      rw [hc]
      simp

theorem dropWhile_append_blocked {p : α → Bool} {r : α} (h : p r = false)
    (x y : List α) : (x ++ r :: y).dropWhile p = x.dropWhile p ++ r :: y := by
  induction x with
  | nil => simp [List.dropWhile_cons, h]
  | cons c rest ih =>
    rw [List.cons_append, List.dropWhile_cons, List.dropWhile_cons]
    by_cases hc : p c = true
    · rw [hc, ih]
      simp
    · simp only [Bool.not_eq_true] at hc
      rw [hc]
      simp

theorem pyStrip_isEmpty_rule (indent : List Char) :
    (pyStrip (indent ++ hlineTok)).isEmpty = false := by
  rw [Bool.eq_false_iff]
  intro h
  rw [List.isEmpty_iff] at h
  rw [pyStrip_eq_nil_iff, List.all_append] at h
  have h2 : hlineTok.all Char.isWhitespace = true := by
    rw [Bool.and_eq_true] at h
    exact h.2
  rw [show hlineTok.all Char.isWhitespace = false from by decide] at h2
  cases h2

theorem applyThreeLine_spec (t : List Char) (firstIdx hOff : Nat)
    (hfirst : pyFindIdx (fun l => !(pyStrip l).isEmpty) (splitLinesNl t) =
      some firstIdx)
    (hheader : pyFindIdx (fun l => containsSub rowTok l)
        ((splitLinesNl t).drop firstIdx) = some hOff) :
    applyThreeLineTableDefault t =
      (let lines := splitLinesNl t
       let indent := (lines.getD firstIdx []).takeWhile Char.isWhitespace
       let rule := indent ++ hlineTok
       let A := lines.take firstIdx
       let rest1 := lines.drop firstIdx
       let B := rest1.take (hOff + 1)
       let rest2 := rest1.drop (hOff + 1)
       let T := (rest2.reverse.takeWhile (fun l => (pyStrip l).isEmpty)).reverse
       let C := (rest2.reverse.dropWhile (fun l => (pyStrip l).isEmpty)).reverse
       let finalLines := A ++ [rule] ++ B ++ [rule] ++ C ++ [rule] ++ T
       if t.getLast? == some '\n' then List.intercalate ['\n'] finalLines ++ ['\n']
       else List.intercalate ['\n'] finalLines) := by
  have hlt1 : firstIdx < (splitLinesNl t).length := pyFindIdx_lt_length hfirst
  have hlt2 : hOff < ((splitLinesNl t).drop firstIdx).length :=
    pyFindIdx_lt_length hheader
  have hne : (splitLinesNl t).isEmpty = false := by
    cases hl : splitLinesNl t with
    | nil => rw [hl] at hfirst; cases hfirst
    | cons a b => rfl
  simp only [applyThreeLineTableDefault, hne, Bool.false_eq_true, if_false,
    hfirst, hheader, Option.map_some']
  -- abbreviations
  set lines := splitLinesNl t with hlines
  set indent := (lines.getD firstIdx []).takeWhile Char.isWhitespace with hindent
  set rule := indent ++ hlineTok with hruledef
  set A := lines.take firstIdx with hA
  set rest1 := lines.drop firstIdx with hrest1
  set B := rest1.take (hOff + 1) with hB
  set rest2 := rest1.drop (hOff + 1) with hrest2
  have hAlen : A.length = firstIdx := by
    rw [hA, List.length_take]
    omega
  have hBlen : B.length = hOff + 1 := by
    rw [hB, List.length_take]
    omega
  have hsplit1 : lines = A ++ rest1 := (List.take_append_drop _ _).symm
  have hsplit2 : rest1 = B ++ rest2 := (List.take_append_drop _ _).symm
  have hins1 : pyInsert firstIdx rule lines = A ++ rule :: rest1 := by
    rw [hsplit1, ← hAlen, pyInsert_at_append]
  have hins2 : pyInsert (hOff + firstIdx + 2) rule (A ++ rule :: rest1) =
      (A ++ rule :: B) ++ rule :: rest2 := by
    have hshape : A ++ rule :: rest1 = (A ++ rule :: B) ++ rest2 := by
      rw [hsplit2]
      simp
    rw [hshape]
    have hlen2 : (A ++ rule :: B).length = hOff + firstIdx + 2 := by
      simp [hAlen, hBlen]
      omega
    rw [← hlen2, pyInsert_at_append]
  rw [hins1, hins2]
  have hrev : ((A ++ rule :: B) ++ rule :: rest2).reverse =
      rest2.reverse ++ rule :: (B.reverse ++ rule :: A.reverse) := by
    simp
  rw [hrev]
  have hblock : ((fun l => (pyStrip l).isEmpty) rule) = false :=
    pyStrip_isEmpty_rule indent
  rw [takeWhile_append_blocked (p := fun l => (pyStrip l).isEmpty) (r := rule)
      hblock,
    dropWhile_append_blocked (p := fun l => (pyStrip l).isEmpty) (r := rule)
      hblock]
  have hkept :
      ((rest2.reverse.dropWhile (fun l => (pyStrip l).isEmpty)) ++
        rule :: (B.reverse ++ rule :: A.reverse)).reverse =
      (A ++ rule :: B) ++
        rule :: (rest2.reverse.dropWhile (fun l => (pyStrip l).isEmpty)).reverse := by
    simp
  rw [hkept]
  have hnorm : A ++ rule :: B ++ rule ::
        (List.dropWhile (fun l => (pyStrip l).isEmpty) rest2.reverse).reverse ++
        [rule] ++
        (List.takeWhile (fun l => (pyStrip l).isEmpty) rest2.reverse).reverse =
      A ++ [rule] ++ B ++ [rule] ++
        (List.dropWhile (fun l => (pyStrip l).isEmpty) rest2.reverse).reverse ++
        [rule] ++
        (List.takeWhile (fun l => (pyStrip l).isEmpty) rest2.reverse).reverse := by
    simp
  rw [hnorm]

/-- The rule line inserted by the three-line default. -/
def tlRule (t : List Char) (firstIdx : Nat) : List Char :=
  ((splitLinesNl t).getD firstIdx []).takeWhile Char.isWhitespace ++ hlineTok

/-- The line list produced by the three-line default: blank prefix, rule,
rows through the header, rule, remaining rows, rule, trailing blanks. -/
def tlFinalLines (t : List Char) (firstIdx hOff : Nat) : List (List Char) :=
  let lines := splitLinesNl t
  let rule := tlRule t firstIdx
  let rest1 := lines.drop firstIdx
  let rest2 := rest1.drop (hOff + 1)
  lines.take firstIdx ++ [rule] ++ rest1.take (hOff + 1) ++ [rule] ++
    (rest2.reverse.dropWhile (fun l => (pyStrip l).isEmpty)).reverse ++ [rule] ++
    (rest2.reverse.takeWhile (fun l => (pyStrip l).isEmpty)).reverse

/-- C6: a tabular-like body with no rule macro left after booktabs
conversion, at least one non-blank line (first at `firstIdx`) and at
least one row-terminator (first at offset `hOff` from there) gains
exactly 3 rule markers: one before the first content row, one right
after the header row (the first row containing `\\`), and one at the end
before any trailing blank lines. -/
theorem c6_three_line_default (body : List Char) (firstIdx hOff : Nat)
    (hrule : hasRuleMacro (convertBooktabsRules body) = false)
    (hfirst : pyFindIdx (fun l => !(pyStrip l).isEmpty)
        (splitLinesNl (convertBooktabsRules body)) = some firstIdx)
    (hheader : pyFindIdx (fun l => containsSub rowTok l)
        ((splitLinesNl (convertBooktabsRules body)).drop firstIdx) = some hOff) :
    (normalizeTableBody body =
      if (convertBooktabsRules body).getLast? == some '\n' then
        List.intercalate ['\n']
          (tlFinalLines (convertBooktabsRules body) firstIdx hOff) ++ ['\n']
      else
        List.intercalate ['\n']
          (tlFinalLines (convertBooktabsRules body) firstIdx hOff)) ∧
    (tlFinalLines (convertBooktabsRules body) firstIdx hOff).countP
      (fun l => containsSub hlineTok l) = 3 ∧
    (∀ l ∈ (splitLinesNl (convertBooktabsRules body)).take firstIdx,
      (pyStrip l).isEmpty = true) ∧
    (!(pyStrip ((splitLinesNl (convertBooktabsRules body)).getD firstIdx
      [])).isEmpty) = true ∧
    (∀ l ∈ ((splitLinesNl (convertBooktabsRules body)).drop firstIdx).take hOff,
      containsSub rowTok l = false) ∧
    containsSub rowTok
      (((splitLinesNl (convertBooktabsRules body)).drop firstIdx).getD hOff []) =
      true ∧
    ((((splitLinesNl (convertBooktabsRules body)).drop firstIdx).drop
          (hOff + 1)).reverse.dropWhile (fun l => (pyStrip l).isEmpty)).reverse ++
      ((((splitLinesNl (convertBooktabsRules body)).drop firstIdx).drop
          (hOff + 1)).reverse.takeWhile (fun l => (pyStrip l).isEmpty)).reverse =
      ((splitLinesNl (convertBooktabsRules body)).drop firstIdx).drop (hOff + 1) ∧
    (∀ l ∈ ((((splitLinesNl (convertBooktabsRules body)).drop firstIdx).drop
          (hOff + 1)).reverse.takeWhile (fun l => (pyStrip l).isEmpty)).reverse,
      (pyStrip l).isEmpty = true) := by
  have hfree : ∀ l ∈ splitLinesNl (convertBooktabsRules body),
      containsSub hlineTok l = false := by
    intro l hl
    rw [hasRuleMacro, Bool.or_eq_false_iff] at hrule
    exact splitLines_containsSub_false hrule.1 hl
  refine ⟨?_, ?_, ?_, ?_, ?_, ?_, ?_, ?_⟩
  · rw [normalizeTableBody]
    simp only [hrule, Bool.not_false, if_true]
    rw [applyThreeLine_spec _ firstIdx hOff hfirst hheader]
    rfl
  · have hone : containsSub hlineTok (tlRule (convertBooktabsRules body) firstIdx) =
        true := by
      rw [tlRule]
      have := containsSub_append_pat hlineTok
        (((splitLinesNl (convertBooktabsRules body)).getD firstIdx
          []).takeWhile Char.isWhitespace) []
      simpa using this
    have hz : ∀ s : List (List Char),
        (∀ l ∈ s, l ∈ splitLinesNl (convertBooktabsRules body)) →
          s.countP (fun l => containsSub hlineTok l) = 0 := by
      intro s hs
      rw [List.countP_eq_zero]
      intro a ha
      simp [hfree a (hs a ha)]
    have hz1 := hz ((splitLinesNl (convertBooktabsRules body)).take firstIdx)
      (fun l hl => List.mem_of_mem_take hl)
    have hz2 := hz
      (((splitLinesNl (convertBooktabsRules body)).drop firstIdx).take (hOff + 1))
      (fun l hl => List.mem_of_mem_drop (List.mem_of_mem_take hl))
    have hz3 := hz
      (((((splitLinesNl (convertBooktabsRules body)).drop firstIdx).drop
        (hOff + 1)).reverse.dropWhile (fun l => (pyStrip l).isEmpty)).reverse)
      (fun l hl => by
        rw [List.mem_reverse] at hl
        have hsub := List.dropWhile_sublist
          (p := fun l => (pyStrip l).isEmpty)
          (l := (((splitLinesNl (convertBooktabsRules body)).drop
            firstIdx).drop (hOff + 1)).reverse)
        have hmem := hsub.mem hl
        rw [List.mem_reverse] at hmem
        exact List.mem_of_mem_drop (List.mem_of_mem_drop hmem))
    have hz4 := hz
      (((((splitLinesNl (convertBooktabsRules body)).drop firstIdx).drop
        (hOff + 1)).reverse.takeWhile (fun l => (pyStrip l).isEmpty)).reverse)
      (fun l hl => by
        rw [List.mem_reverse] at hl
        have hsub := List.takeWhile_sublist
          (p := fun l => (pyStrip l).isEmpty)
          (l := (((splitLinesNl (convertBooktabsRules body)).drop
            firstIdx).drop (hOff + 1)).reverse)
        have hmem := hsub.mem hl
        rw [List.mem_reverse] at hmem
        exact List.mem_of_mem_drop (List.mem_of_mem_drop hmem))
    rw [tlFinalLines]
    simp only [List.countP_append, hz1, hz2, hz3, hz4, List.countP_cons,
      List.countP_nil, hone]
    simp
  · intro l hl
    have := pyFindIdx_take_false hfirst l hl
    simpa using this
  · exact pyFindIdx_getD [] hfirst
  · intro l hl
    exact pyFindIdx_take_false hheader l hl
  · exact pyFindIdx_getD [] hheader
  · calc
      _ = ((((splitLinesNl (convertBooktabsRules body)).drop firstIdx).drop
            (hOff + 1)).reverse.takeWhile (fun l => (pyStrip l).isEmpty) ++
          (((splitLinesNl (convertBooktabsRules body)).drop firstIdx).drop
            (hOff + 1)).reverse.dropWhile (fun l => (pyStrip l).isEmpty)).reverse := by
        rw [List.reverse_append]
      _ = _ := by
        rw [List.takeWhile_append_dropWhile, List.reverse_reverse]
  · intro l hl
    rw [List.mem_reverse] at hl
    exact List.mem_takeWhile_imp (p := fun l => (pyStrip l).isEmpty) hl


/-- Concrete table body for the C6 witness. -/
def c6Body : List Char := "x & y \\\\\n1 & 2\n".toList

/-- C6 witness: the theorem applied to a two-row table without rules. -/
theorem c6_three_line_default_witness :
    hasRuleMacro (convertBooktabsRules c6Body) = false ∧
    pyFindIdx (fun l => !(pyStrip l).isEmpty)
      (splitLinesNl (convertBooktabsRules c6Body)) = some 0 ∧
    pyFindIdx (fun l => containsSub rowTok l)
      ((splitLinesNl (convertBooktabsRules c6Body)).drop 0) = some 0 ∧
    ((normalizeTableBody c6Body =
      if (convertBooktabsRules c6Body).getLast? == some '\n' then
        List.intercalate ['\n']
          (tlFinalLines (convertBooktabsRules c6Body) 0 0) ++ ['\n']
      else
        List.intercalate ['\n']
          (tlFinalLines (convertBooktabsRules c6Body) 0 0)) ∧
    (tlFinalLines (convertBooktabsRules c6Body) 0 0).countP
      (fun l => containsSub hlineTok l) = 3 ∧
    (∀ l ∈ (splitLinesNl (convertBooktabsRules c6Body)).take 0,
      (pyStrip l).isEmpty = true) ∧
    (!(pyStrip ((splitLinesNl (convertBooktabsRules c6Body)).getD 0
      [])).isEmpty) = true ∧
    (∀ l ∈ ((splitLinesNl (convertBooktabsRules c6Body)).drop 0).take 0,
      containsSub rowTok l = false) ∧
    containsSub rowTok
      (((splitLinesNl (convertBooktabsRules c6Body)).drop 0).getD 0 []) =
      true ∧
    ((((splitLinesNl (convertBooktabsRules c6Body)).drop 0).drop
          (0 + 1)).reverse.dropWhile (fun l => (pyStrip l).isEmpty)).reverse ++
      ((((splitLinesNl (convertBooktabsRules c6Body)).drop 0).drop
          (0 + 1)).reverse.takeWhile (fun l => (pyStrip l).isEmpty)).reverse =
      ((splitLinesNl (convertBooktabsRules c6Body)).drop 0).drop (0 + 1) ∧
    (∀ l ∈ ((((splitLinesNl (convertBooktabsRules c6Body)).drop 0).drop
          (0 + 1)).reverse.takeWhile (fun l => (pyStrip l).isEmpty)).reverse,
      (pyStrip l).isEmpty = true)) :=
  ⟨by decide, by decide, by decide,
    c6_three_line_default c6Body 0 0 (by decide) (by decide) (by decide)⟩

/-! ## Reference rewriting
(`ContentModifier._update_references`,
`ContentModifier._update_subfigure_references`,
`ContentModifier._update_main_reference`)

`TexPatterns.LABEL = \label\{(.*?)\}` (no DOTALL): a match captures the
shortest newline-free run up to a closing brace.
`TexPatterns.INCLUDEGRAPHICS = \includegraphics(?s:.*?)\}`: a match runs
from the tag through the first following `}` (newlines allowed). -/

def lblTag : List Char := "\\label\x7b".toList

def igTag : List Char := "\\includegraphics".toList

/-- `\ref{x}`. -/
def refStr (x : List Char) : List Char := "\\ref\x7b".toList ++ x ++ ['\x7d']

/-- `\label{n}`, used to build figure environments in the theorems. -/
def labelStr (n : List Char) : List Char := lblTag ++ n ++ ['\x7d']

/-- Capture of `(.*?)\}` without DOTALL: the shortest newline-free run up
to a `}`; returns the capture and the number of characters consumed
(including the closing brace). -/
def captureToBrace : List Char → Option (List Char × Nat)
  | [] => none
  | c :: rest =>
    if c == '\x7d' then some ([], 1)
    else if c == '\n' then none
    else (captureToBrace rest).map (fun p => (c :: p.1, p.2 + 1))

/-- `regex.findall(LABEL, s)`: the `Nat` skips characters consumed by the
previous match; a failed capture resumes after the tag (the tag's other
six characters contain no backslash, so no match can start inside it). -/
def findLabelsAux : Nat → List Char → List (List Char)
  | _ + 1, [] => []
  | k + 1, _ :: rest => findLabelsAux k rest
  | 0, [] => []
  | 0, c :: rest =>
    if lblTag.isPrefixOf (c :: rest) then
      match captureToBrace ((c :: rest).drop lblTag.length) with
      | some nk => nk.1 :: findLabelsAux (lblTag.length - 1 + nk.2) rest
      | none => findLabelsAux (lblTag.length - 1) rest
    else findLabelsAux 0 rest

def findLabels (s : List Char) : List (List Char) := findLabelsAux 0 s

/-- The inter-match text areas of `regex.finditer(INCLUDEGRAPHICS, s)`:
one entry per match, holding the text from that match's end to the next
match's start (to the end of the string for the last match), as consumed
by `_update_subfigure_references`.  The `Nat` skips characters inside the
current match; the accumulator holds the reversed area gathered since the
last match end (`none` before the first match). -/
def emitAcc (acc : Option (List Char)) : List (List Char) :=
  match acc with
  | some a => [a.reverse]
  | none => []

def emitEnd (acc : Option (List Char)) (l : List Char) : List (List Char) :=
  match acc with
  | some a => [a.reverse ++ l]
  | none => []

def igAreasAux : Nat → Option (List Char) → List Char → List (List Char)
  | _ + 1, acc, [] => emitAcc acc
  | k + 1, acc, _ :: rest => igAreasAux k acc rest
  | 0, acc, [] => emitAcc acc
  | 0, acc, c :: rest =>
    if igTag.isPrefixOf (c :: rest) then
      match pyFindIdx (fun x => x == '\x7d') ((c :: rest).drop igTag.length) with
      | some d => emitAcc acc ++ igAreasAux (igTag.length - 1 + d + 1) (some []) rest
      | none => emitEnd acc (c :: rest)
    else igAreasAux 0 (acc.map (c :: ·)) rest

def igAreas (s : List Char) : List (List Char) := igAreasAux 0 none s

/-- `chr(ord('a') + i)`. -/
def subfigLetter (i : Nat) : Char := Char.ofNat ('a'.toNat + i)

/-- `ContentModifier._update_subfigure_references`. -/
def updateSubfigureReferences (orig newLabel doc : List Char) : List Char :=
  let mainLabel := (findLabels orig).getLast?
  let areas := igAreas orig
  areas.enum.foldl
    (fun d p =>
      match (findLabels p.2).head? with
      | none => d
      | some subfigLabel =>
        if some subfigLabel = mainLabel then d
        else
          let oldRef := refStr subfigLabel
          let newRef := refStr newLabel ++ ['(', subfigLetter p.1, ')']
          if containsSub oldRef d then replaceAll oldRef newRef d else d)
    doc

/-- `ContentModifier._update_main_reference`. -/
def updateMainReference (orig newLabel doc : List Char) : List Char :=
  match (findLabels orig).getLast? with
  | none => doc
  | some mainLabel =>
    let oldRef := refStr mainLabel
    let newRef := refStr newLabel
    if containsSub oldRef doc then replaceAll oldRef newRef doc else doc

/-- `ContentModifier._update_references` (after the new label has been
extracted from the replacement environment). -/
def updateReferences (orig newEnv doc : List Char) : List Char :=
  match (findLabels newEnv).head? with
  | none => doc
  | some newLabel =>
    updateMainReference orig newLabel
      (updateSubfigureReferences orig newLabel doc)

/-- Label names free of braces, backslashes and newlines — the scanners
capture such names exactly. -/
def labelSafe (l : List Char) : Bool :=
  l.all (fun c => !(c == '\x7b' || c == '\x7d' || c == '\\' || c == '\n'))

/-- Replacement passes an occurrence-free chunk through unchanged. -/
def Transparent (pat piece : List Char) : Prop :=
  ∀ rep rest, replaceAll pat rep (piece ++ rest) = piece ++ replaceAll pat rep rest

theorem labelSafe_mem {n : List Char} (h : labelSafe n = true) {c : Char}
    (hc : c ∈ n) : c ≠ '\x7b' ∧ c ≠ '\x7d' ∧ c ≠ '\\' ∧ c ≠ '\n' := by
  rw [labelSafe, List.all_eq_true] at h
  have := h c hc
  simp only [Bool.not_eq_true', Bool.or_eq_false_iff] at this
  refine ⟨?_, ?_, ?_, ?_⟩ <;> intro he <;> subst he <;> simp at this

theorem captureToBrace_name {n : List Char} (h : labelSafe n = true)
    (t : List Char) :
    captureToBrace (n ++ '\x7d' :: t) = some (n, n.length + 1) := by
  induction n with
  | nil => rfl
  | cons c rest ih =>
    have hmem := labelSafe_mem h (List.mem_cons_self c rest)
    have hrest : labelSafe rest = true := by
      rw [labelSafe, List.all_cons, Bool.and_eq_true] at h
      exact h.2
    rw [List.cons_append, captureToBrace]
    rw [if_neg (by simpa using hmem.2.1), if_neg (by simpa using hmem.2.2.2)]
    rw [ih hrest]
    simp

theorem findLabelsAux_skip (a t : List Char) :
    findLabelsAux a.length (a ++ t) = findLabelsAux 0 t := by
  induction a with
  | nil => rfl
  | cons c rest ih => simpa [findLabelsAux] using ih

theorem lblTag_head : lblTag = '\\' :: "label\x7b".toList := by decide

theorem findLabelsAux_miss {c : Char} (rest : List Char)
    (h : lblTag.isPrefixOf (c :: rest) = false) :
    findLabelsAux 0 (c :: rest) = findLabelsAux 0 rest := by
  rw [findLabelsAux, h]
  simp

theorem findLabelsAux_bsFree {g : List Char} (h : bsFree g = true)
    (t : List Char) : findLabelsAux 0 (g ++ t) = findLabelsAux 0 t := by
  induction g with
  | nil => rfl
  | cons c rest ih =>
    rw [bsFree, List.all_cons, Bool.and_eq_true] at h
    have hc : '\\' ≠ c := by
      intro he
      rw [← he] at h
      simp at h
    rw [List.cons_append,
      findLabelsAux_miss _ (by rw [lblTag_head]; exact isPrefixOf_cons_of_ne hc)]
    exact ih (by rw [bsFree]; exact h.2)

theorem findLabels_label_append {n : List Char} (h : labelSafe n = true)
    (t : List Char) :
    findLabelsAux 0 (labelStr n ++ t) = n :: findLabelsAux 0 t := by
  have hshape : labelStr n ++ t = '\\' :: ("label\x7b".toList ++ (n ++ '\x7d' :: t)) := by
    rw [labelStr, lblTag_head]
    simp
  rw [hshape, findLabelsAux]
  have hpre : lblTag.isPrefixOf
      ('\\' :: ("label\x7b".toList ++ (n ++ '\x7d' :: t))) = true := by
    rw [lblTag_head]
    exact isPrefixOf_append _ _
  rw [hpre]
  simp only [if_true]
  have hdrop : ('\\' :: ("label\x7b".toList ++ (n ++ '\x7d' :: t))).drop
      lblTag.length = n ++ '\x7d' :: t := by
    rw [show lblTag.length = 7 from by decide]
    simp
  rw [hdrop, captureToBrace_name h]
  simp only []
  have hskip : lblTag.length - 1 + (n.length + 1) =
      ("label\x7b".toList ++ n ++ ['\x7d']).length := by
    simp [show lblTag.length = 7 from by decide]
    omega
  have hshape2 : "label\x7b".toList ++ (n ++ '\x7d' :: t) =
      ("label\x7b".toList ++ n ++ ['\x7d']) ++ t := by
    simp
  rw [hshape2, hskip, findLabelsAux_skip]

theorem not_prefix_name :
    ∀ {X Y : List Char}, labelSafe X = true → labelSafe Y = true → X ≠ Y →
      ∀ t, (X ++ ['\x7d']).isPrefixOf (Y ++ '\x7d' :: t) = false := by
  intro X
  induction X with
  | nil =>
    intro Y hX hY hne t
    cases Y with
    | nil => exact absurd rfl hne
    | cons d ds =>
      have hd := labelSafe_mem hY (List.mem_cons_self d ds)
      simp only [List.nil_append, List.cons_append, List.isPrefixOf]
      have : ('\x7d' == d) = false := by
        rw [Bool.eq_false_iff]
        intro he
        exact hd.2.1 (beq_iff_eq.mp he).symm
      simp [this]
  | cons c cs ih =>
    intro Y hX hY hne t
    have hc := labelSafe_mem hX (List.mem_cons_self c cs)
    have hcs : labelSafe cs = true := by
      rw [labelSafe, List.all_cons, Bool.and_eq_true] at hX
      exact hX.2
    cases Y with
    | nil =>
      simp only [List.cons_append, List.nil_append, List.isPrefixOf]
      have : (c == '\x7d') = false := by
        rw [Bool.eq_false_iff]
        intro he
        exact hc.2.1 (beq_iff_eq.mp he)
      simp [this]
    | cons d ds =>
      have hds : labelSafe ds = true := by
        rw [labelSafe, List.all_cons, Bool.and_eq_true] at hY
        exact hY.2
      simp only [List.cons_append, List.isPrefixOf]
      by_cases hcd : c = d
      · subst hcd
        have hne' : cs ≠ ds := by
          intro he
          exact hne (by rw [he])
        simp only [List.append_eq]
        rw [ih hcs hds hne' t]
        simp
      · have : (c == d) = false := by
          rw [Bool.eq_false_iff]
          intro he
          exact hcd (beq_iff_eq.mp he)
        simp [this]

theorem isPrefixOf_append_cancel (p : List Char) (x y : List Char) :
    (p ++ x).isPrefixOf (p ++ y) = x.isPrefixOf y := by
  induction p with
  | nil => rfl
  | cons c rest ih => simpa [List.isPrefixOf] using ih

theorem refStr_miss {X Y : List Char} (hX : labelSafe X = true)
    (hY : labelSafe Y = true) (hne : X ≠ Y) (t : List Char) :
    (refStr X).isPrefixOf (refStr Y ++ t) = false := by
  have h1 : refStr X = "\\ref\x7b".toList ++ (X ++ ['\x7d']) := by
    rw [refStr]; simp
  have h2 : refStr Y ++ t = "\\ref\x7b".toList ++ (Y ++ '\x7d' :: t) := by
    rw [refStr]; simp
  rw [h1, h2, isPrefixOf_append_cancel]
  exact not_prefix_name hX hY hne t

theorem refStr_head (X : List Char) :
    refStr X = '\\' :: ("ref\x7b".toList ++ (X ++ ['\x7d'])) := by
  rw [refStr]
  simp [show "\\ref\x7b".toList = '\\' :: "ref\x7b".toList from by decide]

theorem bsFree_transparent {X piece : List Char} (h : bsFree piece = true) :
    Transparent (refStr X) piece := by
  intro rep rest
  exact replaceAll_bsFree_append (refStr X) rep (refStr_head X) piece rest h

theorem transparent_ref_append {X Y s : List Char} (hX : labelSafe X = true)
    (hY : labelSafe Y = true) (hne : X ≠ Y) (hs : bsFree s = true) :
    Transparent (refStr X) (refStr Y ++ s) := by
  intro rep rest
  have hro : refStr Y ++ s ++ rest = '\\' ::
      (("ref\x7b".toList ++ (Y ++ ['\x7d'])) ++ (s ++ rest)) := by
    rw [refStr_head]
    simp
  rw [hro]
  have hnp : (refStr X).isPrefixOf ('\\' ::
      (("ref\x7b".toList ++ (Y ++ ['\x7d'])) ++ (s ++ rest))) = false := by
    have := refStr_miss hX hY hne (s ++ rest)
    rw [refStr_head Y] at this
    simpa using this
  rw [replaceAll_cons_no_match _ _ _ _ hnp]
  have hbs : bsFree (("ref\x7b".toList ++ (Y ++ ['\x7d'])) ++ s) = true := by
    rw [bsFree, List.all_eq_true]
    intro x hx
    simp only [List.mem_append] at hx
    rcases hx with (hx | hx | hx) | hx
    · rw [show "ref\x7b".toList = ['r', 'e', 'f', '\x7b'] from by decide] at hx
      fin_cases hx <;> decide
    · have := (labelSafe_mem hY hx).2.2.1
      simpa using this
    · simp only [List.mem_singleton] at hx
      subst hx
      decide
    · rw [bsFree, List.all_eq_true] at hs
      exact hs x hx
  have := replaceAll_bsFree_append (refStr X) rep (refStr_head X)
    (("ref\x7b".toList ++ (Y ++ ['\x7d'])) ++ s) rest
    hbs
  rw [show (("ref\x7b".toList ++ (Y ++ ['\x7d'])) ++ s) ++ rest =
      ("ref\x7b".toList ++ (Y ++ ['\x7d'])) ++ (s ++ rest) from by simp] at this
  rw [this]
  rw [refStr_head Y]
  simp

/-- Argument text of an `\includegraphics` invocation: free of
backslashes and closing braces, so the match ends at the explicit `}`. -/
def argSafe (a : List Char) : Bool :=
  a.all (fun c => !(c == '\\' || c == '\x7d'))

theorem igTag_head : igTag = '\\' :: "includegraphics".toList := by decide

theorem igAreasAux_skip (p : List Char) (acc : Option (List Char))
    (t : List Char) : igAreasAux p.length acc (p ++ t) = igAreasAux 0 acc t := by
  induction p generalizing acc with
  | nil => rfl
  | cons c rest ih => simpa [igAreasAux] using ih _

theorem igAreasAux_miss {c : Char} (rest : List Char)
    (acc : Option (List Char)) (h : igTag.isPrefixOf (c :: rest) = false) :
    igAreasAux 0 acc (c :: rest) = igAreasAux 0 (acc.map (c :: ·)) rest := by
  rw [igAreasAux, h]
  simp

theorem igAreasAux_bsFree {g : List Char} (h : bsFree g = true) :
    ∀ (acc : Option (List Char)) (t : List Char),
      igAreasAux 0 acc (g ++ t) = igAreasAux 0 (acc.map (g.reverse ++ ·)) t := by
  induction g with
  | nil =>
    intro acc t
    cases acc <;> simp
  | cons c gs ih =>
    intro acc t
    rw [bsFree, List.all_cons, Bool.and_eq_true] at h
    obtain ⟨h1, h2⟩ := h
    have hc : '\\' ≠ c := by
      intro he
      rw [← he] at h1
      simp at h1
    rw [List.cons_append,
      igAreasAux_miss _ _ (by rw [igTag_head]; exact isPrefixOf_cons_of_ne hc),
      ih (by rw [bsFree]; exact h2)]
    cases acc <;> simp

theorem igTag_not_prefix_l (rest : List Char) :
    igTag.isPrefixOf ('\\' :: 'l' :: rest) = false := by
  rw [show igTag = '\\' :: 'i' :: "ncludegraphics".toList from by decide]
  simp [List.isPrefixOf]

theorem lblTag_not_prefix_i (rest : List Char) :
    lblTag.isPrefixOf ('\\' :: 'i' :: rest) = false := by
  rw [show lblTag = '\\' :: 'l' :: "abel\x7b".toList from by decide]
  simp [List.isPrefixOf]

theorem igAreasAux_label {n : List Char} (h : labelSafe n = true)
    (acc : Option (List Char)) (t : List Char) :
    igAreasAux 0 acc (labelStr n ++ t) =
      igAreasAux 0 (acc.map ((labelStr n).reverse ++ ·)) t := by
  have hchunk : bsFree ("label\x7b".toList ++ n ++ ['\x7d']) = true := by
    rw [bsFree, List.all_eq_true]
    intro x hx
    simp only [List.mem_append] at hx
    rcases hx with (hx | hx) | hx
    · rw [show "label\x7b".toList = ['l', 'a', 'b', 'e', 'l', '\x7b'] from by decide] at hx
      fin_cases hx <;> decide
    · have := (labelSafe_mem h hx).2.2.1
      simpa using this
    · simp only [List.mem_singleton] at hx
      subst hx
      decide
  have hshape : labelStr n ++ t =
      '\\' :: 'l' :: (("abel\x7b".toList ++ n ++ ['\x7d']) ++ t) := by
    rw [labelStr, lblTag_head]
    simp [show "label\x7b".toList = 'l' :: "abel\x7b".toList from by decide]
  rw [hshape, igAreasAux_miss _ _ (igTag_not_prefix_l _)]
  have hl : igTag.isPrefixOf
      ('l' :: (("abel\x7b".toList ++ n ++ ['\x7d']) ++ t)) = false := by
    rw [igTag_head]
    exact isPrefixOf_cons_of_ne (by decide)
  rw [igAreasAux_miss _ _ hl]
  have habel : bsFree ("abel\x7b".toList ++ n ++ ['\x7d']) = true := by
    rw [bsFree, List.all_eq_true]
    intro x hx
    rw [bsFree, List.all_eq_true] at hchunk
    apply hchunk
    simp only [List.mem_append] at hx ⊢
    rcases hx with (hx | hx) | hx
    · left; left
      rw [show "label\x7b".toList = 'l' :: "abel\x7b".toList from by decide]
      exact List.mem_cons_of_mem _ hx
    · left; right; exact hx
    · right; exact hx
  rw [igAreasAux_bsFree habel]
  cases acc <;> simp [labelStr, lblTag_head,
    show "label\x7b".toList = 'l' :: "abel\x7b".toList from by decide]

theorem pyFindIdx_rbrace {a : List Char} (h : argSafe a = true) (t : List Char) :
    pyFindIdx (fun x => x == '\x7d') (a ++ '\x7d' :: t) = some a.length := by
  induction a with
  | nil => rfl
  | cons c rest ih =>
    rw [argSafe, List.all_cons, Bool.and_eq_true] at h
    have hc : (c == '\x7d') = false := by
      have := h.1
      simp only [Bool.not_eq_true', Bool.or_eq_false_iff] at this
      exact this.2
    rw [List.cons_append, pyFindIdx, if_neg (by simp [hc]),
      ih (by rw [argSafe]; exact h.2)]
    simp

theorem igAreasAux_match {a : List Char} (ha : argSafe a = true)
    (acc : Option (List Char)) (t : List Char) :
    igAreasAux 0 acc ((igTag ++ a ++ ['\x7d']) ++ t) =
      emitAcc acc ++ igAreasAux 0 (some []) t := by
  have hshape : (igTag ++ a ++ ['\x7d']) ++ t =
      '\\' :: ("includegraphics".toList ++ (a ++ '\x7d' :: t)) := by
    rw [igTag_head]
    simp
  have hpre : igTag.isPrefixOf
      ('\\' :: ("includegraphics".toList ++ (a ++ '\x7d' :: t))) = true := by
    rw [igTag_head]
    exact isPrefixOf_append _ _
  rw [hshape, igAreasAux, hpre]
  simp only [if_true]
  have hdrop : ('\\' :: ("includegraphics".toList ++ (a ++ '\x7d' :: t))).drop
      igTag.length = a ++ '\x7d' :: t := by
    rw [show igTag.length = 16 from by decide]
    simp
  rw [hdrop, pyFindIdx_rbrace ha]
  have hskip : igTag.length - 1 + a.length + 1 =
      ("includegraphics".toList ++ a ++ ['\x7d']).length := by
    simp [show igTag.length = 16 from by decide]
    omega
  have hshape2 : "includegraphics".toList ++ (a ++ '\x7d' :: t) =
      ("includegraphics".toList ++ a ++ ['\x7d']) ++ t := by
    simp
  dsimp only
  rw [hshape2, hskip, igAreasAux_skip]

theorem findLabelsAux_ig {a : List Char} (ha : argSafe a = true)
    (t : List Char) :
    findLabelsAux 0 ((igTag ++ a ++ ['\x7d']) ++ t) = findLabelsAux 0 t := by
  have hshape : (igTag ++ a ++ ['\x7d']) ++ t =
      '\\' :: 'i' :: (("ncludegraphics".toList ++ a ++ ['\x7d']) ++ t) := by
    rw [show igTag = '\\' :: 'i' :: "ncludegraphics".toList from by decide]
    simp
  rw [hshape, findLabelsAux_miss _ (lblTag_not_prefix_i _)]
  have hi : lblTag.isPrefixOf
      ('i' :: (("ncludegraphics".toList ++ a ++ ['\x7d']) ++ t)) = false := by
    rw [lblTag_head]
    exact isPrefixOf_cons_of_ne (by decide)
  rw [findLabelsAux_miss _ hi]
  apply findLabelsAux_bsFree
  rw [bsFree, List.all_eq_true]
  intro x hx
  simp only [List.mem_append] at hx
  rcases hx with (hx | hx) | hx
  · rw [show "ncludegraphics".toList =
      ['n', 'c', 'l', 'u', 'd', 'e', 'g', 'r', 'a', 'p', 'h', 'i', 'c', 's']
      from by decide] at hx
    fin_cases hx <;> decide
  · rw [argSafe, List.all_eq_true] at ha
    have := ha x hx
    simp only [Bool.not_eq_true', Bool.or_eq_false_iff] at this
    simp [this.1]
  · simp only [List.mem_singleton] at hx
    subst hx
    decide

theorem refStr_ne_nil (X : List Char) : refStr X ≠ [] := by
  rw [refStr_head]
  exact List.cons_ne_nil _ _

theorem refStr_injective {X Y : List Char} (h : refStr X = refStr Y) : X = Y := by
  rw [refStr_head, refStr_head] at h
  have h2 := List.cons.inj h
  have h3 := List.append_cancel_left h2.2
  have h4 := congrArg List.reverse h3
  simp only [List.reverse_append, List.reverse_cons, List.reverse_nil,
    List.nil_append, List.cons_append] at h4
  have h5 := List.cons.inj h4
  simpa using congrArg List.reverse h5.2

theorem refStr_append_ne {X L : List Char} (hX : labelSafe X = true)
    (hL : labelSafe L = true) (hne : X ≠ L) (s : List Char) :
    refStr L ++ s ≠ refStr X := by
  intro he
  have hpre : (refStr X).isPrefixOf (refStr L ++ s) = true := by
    rw [he]
    simp
  rw [refStr_miss hX hL hne s] at hpre
  cases hpre

theorem transparent_ref {X Y : List Char} (hX : labelSafe X = true)
    (hY : labelSafe Y = true) (hne : X ≠ Y) :
    Transparent (refStr X) (refStr Y) := by
  have := transparent_ref_append hX hY hne (s := []) rfl
  simpa using this

theorem replaceAll_join (pat rep : List Char) (hne : pat ≠ []) :
    ∀ cs : List (List Char), (∀ c ∈ cs, c = pat ∨ Transparent pat c) →
      replaceAll pat rep cs.flatten =
        (cs.map (fun c => if c = pat then rep else c)).flatten := by
  intro cs
  induction cs with
  | nil => intro _; rfl
  | cons c cs' ih =>
    intro h
    rw [List.flatten_cons, List.map_cons, List.flatten_cons]
    by_cases hc : c = pat
    · subst hc
      rw [replaceAll_pat_append _ _ _ hne, if_pos rfl,
        ih (fun x hx => h x (List.mem_cons_of_mem _ hx))]
    · have htr : Transparent pat c := by
        rcases h c (List.mem_cons_self _ _) with h1 | h1
        · exact absurd h1 hc
        · exact h1
      rw [htr rep cs'.flatten, if_neg hc,
        ih (fun x hx => h x (List.mem_cons_of_mem _ hx))]

theorem containsSub_join_of_mem {pat : List Char} {cs : List (List Char)}
    (h : pat ∈ cs) : containsSub pat cs.flatten = true := by
  obtain ⟨s, t, rfl⟩ := List.append_of_mem h
  rw [List.flatten_append, List.flatten_cons]
  have := containsSub_append_pat pat s.flatten t.flatten
  simpa [List.append_assoc] using this

/-- The guarded replacement step performed by `_update_subfigure_references`
and `_update_main_reference` on a chunked document. -/
theorem guarded_replace (pat rep : List Char) (hne : pat ≠ [])
    (cs : List (List Char)) (hcs : ∀ c ∈ cs, c = pat ∨ Transparent pat c) :
    (if containsSub pat cs.flatten then replaceAll pat rep cs.flatten else cs.flatten) =
      (cs.map (fun c => if c = pat then rep else c)).flatten := by
  by_cases hc : containsSub pat cs.flatten = true
  · rw [if_pos hc, replaceAll_join pat rep hne cs hcs]
  · rw [if_neg (by simpa using hc)]
    have hnm : pat ∉ cs := fun hmem => hc (containsSub_join_of_mem hmem)
    have hmap : cs.map (fun c => if c = pat then rep else c) = cs := by
      conv_rhs => rw [← List.map_id cs]
      apply List.map_congr_left
      intro a ha
      have : a ≠ pat := fun he => hnm (he ▸ ha)
      simp [this]
    rw [hmap]

theorem findLabels_nil_of_bsFree {g : List Char} (h : bsFree g = true) :
    findLabelsAux 0 g = [] := by
  have := findLabelsAux_bsFree h []
  simpa using this

/-- A figure environment with two sub-images, two sub-labels and a main
label, surrounded by command-free glue text: the family of floats the
sub-figure reference rewrite is specified on. -/
def figEnv (g0 a1 g1 sA g2 a2 g3 sB g4 m g5 : List Char) : List Char :=
  g0 ++ ((igTag ++ a1 ++ ['\x7d']) ++ (g1 ++ (labelStr sA ++ (g2 ++
    ((igTag ++ a2 ++ ['\x7d']) ++ (g3 ++ (labelStr sB ++ (g4 ++
      (labelStr m ++ g5)))))))))

theorem figEnv_labels {sA sB m g0 g1 g2 g3 g4 g5 a1 a2 : List Char}
    (hsA : labelSafe sA = true) (hsB : labelSafe sB = true)
    (hm : labelSafe m = true)
    (hg0 : bsFree g0 = true) (hg1 : bsFree g1 = true) (hg2 : bsFree g2 = true)
    (hg3 : bsFree g3 = true) (hg4 : bsFree g4 = true) (hg5 : bsFree g5 = true)
    (ha1 : argSafe a1 = true) (ha2 : argSafe a2 = true) :
    findLabels (figEnv g0 a1 g1 sA g2 a2 g3 sB g4 m g5) = [sA, sB, m] := by
  rw [figEnv]
  show findLabelsAux 0 _ = _
  rw [findLabelsAux_bsFree hg0, findLabelsAux_ig ha1, findLabelsAux_bsFree hg1,
    findLabels_label_append hsA, findLabelsAux_bsFree hg2, findLabelsAux_ig ha2,
    findLabelsAux_bsFree hg3, findLabels_label_append hsB,
    findLabelsAux_bsFree hg4, findLabels_label_append hm,
    findLabels_nil_of_bsFree hg5]

theorem figEnv_areas {sA sB m g0 g1 g2 g3 g4 g5 a1 a2 : List Char}
    (hsA : labelSafe sA = true) (hsB : labelSafe sB = true)
    (hm : labelSafe m = true)
    (hg0 : bsFree g0 = true) (hg1 : bsFree g1 = true) (hg2 : bsFree g2 = true)
    (hg3 : bsFree g3 = true) (hg4 : bsFree g4 = true) (hg5 : bsFree g5 = true)
    (ha1 : argSafe a1 = true) (ha2 : argSafe a2 = true) :
    igAreas (figEnv g0 a1 g1 sA g2 a2 g3 sB g4 m g5) =
      [g1 ++ (labelStr sA ++ g2),
       g3 ++ (labelStr sB ++ (g4 ++ (labelStr m ++ g5)))] := by
  rw [figEnv]
  show igAreasAux 0 none _ = _
  rw [igAreasAux_bsFree hg0]
  simp only [Option.map_none']
  rw [igAreasAux_match ha1]
  rw [igAreasAux_bsFree hg1]
  simp only [Option.map_some']
  rw [igAreasAux_label hsA]
  simp only [Option.map_some']
  rw [igAreasAux_bsFree hg2]
  simp only [Option.map_some']
  rw [igAreasAux_match ha2]
  rw [igAreasAux_bsFree hg3]
  simp only [Option.map_some']
  rw [igAreasAux_label hsB]
  simp only [Option.map_some']
  rw [igAreasAux_bsFree hg4]
  simp only [Option.map_some']
  rw [igAreasAux_label hm]
  simp only [Option.map_some']
  have hg5' : igAreasAux 0 (some ((labelStr m).reverse ++
      (g4.reverse ++ ((labelStr sB).reverse ++ (g3.reverse ++ []))))) g5 =
      igAreasAux 0 (some (g5.reverse ++ ((labelStr m).reverse ++
        (g4.reverse ++ ((labelStr sB).reverse ++ (g3.reverse ++ [])))))) [] := by
    have := igAreasAux_bsFree hg5 (some ((labelStr m).reverse ++
      (g4.reverse ++ ((labelStr sB).reverse ++ (g3.reverse ++ []))))) []
    simpa using this
  rw [hg5']
  rw [show ∀ acc, igAreasAux 0 acc [] = emitAcc acc from fun acc => by
    rw [igAreasAux]]
  simp [emitAcc]

/-- C1: for a figure whose last label `m` is the main label and whose two
sub-labels `sA`, `sB` are attached to the two `\includegraphics` commands
(in that order), rewriting the chunked document turns every `\ref{sA}`
chunk into `\ref{L}(a)`, every `\ref{sB}` chunk into `\ref{L}(b)` and
every `\ref{m}` chunk into `\ref{L}` — `L` being the replacement
environment's label — while all other chunks pass through unchanged, and
the three rewritten reference forms are pairwise distinct. -/
theorem c1_subfigure_reference_rewrite
    (sA sB m L g0 g1 g2 g3 g4 g5 a1 a2 newEnv : List Char)
    (cs : List (List Char))
    (hsA : labelSafe sA = true) (hsB : labelSafe sB = true)
    (hm : labelSafe m = true) (hL : labelSafe L = true)
    (hg0 : bsFree g0 = true) (hg1 : bsFree g1 = true) (hg2 : bsFree g2 = true)
    (hg3 : bsFree g3 = true) (hg4 : bsFree g4 = true) (hg5 : bsFree g5 = true)
    (ha1 : argSafe a1 = true) (ha2 : argSafe a2 = true)
    (hAB : sA ≠ sB) (hAm : sA ≠ m) (hBm : sB ≠ m)
    (_hLA : L ≠ sA) (hLB : L ≠ sB) (hLm : L ≠ m)
    (hnew : (findLabels newEnv).head? = some L)
    (hcs : ∀ c ∈ cs, c = refStr sA ∨ c = refStr sB ∨ c = refStr m ∨
      (Transparent (refStr sA) c ∧ Transparent (refStr sB) c ∧
        Transparent (refStr m) c)) :
    updateReferences (figEnv g0 a1 g1 sA g2 a2 g3 sB g4 m g5) newEnv
        cs.flatten =
      (cs.map (fun c =>
        if c = refStr sA then refStr L ++ ['(', 'a', ')']
        else if c = refStr sB then refStr L ++ ['(', 'b', ')']
        else if c = refStr m then refStr L
        else c)).flatten ∧
    refStr L ++ ['(', 'a', ')'] ≠ refStr L ++ ['(', 'b', ')'] ∧
    refStr L ++ ['(', 'a', ')'] ≠ refStr L ∧
    refStr L ++ ['(', 'b', ')'] ≠ refStr L := by
  have hlabels := figEnv_labels hsA hsB hm hg0 hg1 hg2 hg3 hg4 hg5 ha1 ha2
  have hareas := figEnv_areas hsA hsB hm hg0 hg1 hg2 hg3 hg4 hg5 ha1 ha2
  have hlast : (findLabels (figEnv g0 a1 g1 sA g2 a2 g3 sB g4 m g5)).getLast? =
      some m := by
    rw [hlabels]
    rfl
  have harea1 : (findLabels (g1 ++ (labelStr sA ++ g2))).head? = some sA := by
    show (findLabelsAux 0 _).head? = _
    rw [findLabelsAux_bsFree hg1, findLabels_label_append hsA]
    rfl
  have harea2 : (findLabels
      (g3 ++ (labelStr sB ++ (g4 ++ (labelStr m ++ g5))))).head? = some sB := by
    show (findLabelsAux 0 _).head? = _
    rw [findLabelsAux_bsFree hg3, findLabels_label_append hsB]
    rfl
  refine ⟨?_, ?_, ?_, ?_⟩
  · rw [updateReferences, hnew]
    dsimp only
    rw [updateSubfigureReferences]
    simp only [hlast, hareas, List.enum, List.enumFrom, List.foldl_cons,
      List.foldl_nil]
    rw [harea1]
    dsimp only
    rw [if_neg (by simp [hAm])]
    rw [show subfigLetter 0 = 'a' from by decide]
    have hcs1 : ∀ c ∈ cs, c = refStr sA ∨ Transparent (refStr sA) c := by
      intro c hc
      rcases hcs c hc with h | h | h | h
      · exact Or.inl h
      · exact Or.inr (h ▸ transparent_ref hsA hsB hAB)
      · exact Or.inr (h ▸ transparent_ref hsA hm hAm)
      · exact Or.inr h.1
    rw [guarded_replace (refStr sA) (refStr L ++ ['(', 'a', ')'])
      (refStr_ne_nil sA) cs hcs1]
    rw [harea2]
    dsimp only
    rw [if_neg (by simp [hBm])]
    rw [show subfigLetter 1 = 'b' from by decide]
    have hcs2 : ∀ c ∈ cs.map (fun c => if c = refStr sA then
        refStr L ++ ['(', 'a', ')'] else c),
        c = refStr sB ∨ Transparent (refStr sB) c := by
      intro c' hc'
      obtain ⟨c, hc, rfl⟩ := List.mem_map.mp hc'
      by_cases h1 : c = refStr sA
      · rw [if_pos h1]
        exact Or.inr (transparent_ref_append hsB hL (Ne.symm hLB) (by decide))
      · rw [if_neg h1]
        rcases hcs c hc with h | h | h | h
        · exact absurd h h1
        · exact Or.inl h
        · exact Or.inr (h ▸ transparent_ref hsB hm hBm)
        · exact Or.inr h.2.1
    rw [guarded_replace (refStr sB) (refStr L ++ ['(', 'b', ')'])
      (refStr_ne_nil sB) _ hcs2]
    rw [updateMainReference, hlast]
    dsimp only
    have hcs3 : ∀ c ∈ (cs.map (fun c => if c = refStr sA then
          refStr L ++ ['(', 'a', ')'] else c)).map
        (fun c => if c = refStr sB then refStr L ++ ['(', 'b', ')'] else c),
        c = refStr m ∨ Transparent (refStr m) c := by
      intro c'' hc''
      obtain ⟨c', hc', rfl⟩ := List.mem_map.mp hc''
      obtain ⟨c, hc, rfl⟩ := List.mem_map.mp hc'
      by_cases h1 : c = refStr sA
      · rw [if_pos h1,
          if_neg (refStr_append_ne hsB hL (Ne.symm hLB) ['(', 'a', ')'])]
        exact Or.inr (transparent_ref_append hm hL (Ne.symm hLm) (by decide))
      · rw [if_neg h1]
        by_cases h2 : c = refStr sB
        · rw [if_pos h2]
          exact Or.inr (transparent_ref_append hm hL (Ne.symm hLm) (by decide))
        · rw [if_neg h2]
          rcases hcs c hc with h | h | h | h
          · exact absurd h h1
          · exact absurd h h2
          · exact Or.inl h
          · exact Or.inr h.2.2
    rw [guarded_replace (refStr m) (refStr L) (refStr_ne_nil m) _ hcs3]
    rw [List.map_map, List.map_map]
    congr 1
    apply List.map_congr_left
    intro c _
    simp only [Function.comp]
    by_cases h1 : c = refStr sA
    · rw [if_pos h1, if_pos h1,
        if_neg (refStr_append_ne hsB hL (Ne.symm hLB) ['(', 'a', ')']),
        if_neg (refStr_append_ne hm hL (Ne.symm hLm) ['(', 'a', ')'])]
    · rw [if_neg h1, if_neg h1]
      by_cases h2 : c = refStr sB
      · rw [if_pos h2, if_pos h2,
          if_neg (refStr_append_ne hm hL (Ne.symm hLm) ['(', 'b', ')'])]
      · rw [if_neg h2, if_neg h2]
  · intro h
    have := List.append_cancel_left h
    simp at this
  · intro h
    have := congrArg List.length h
    simp at this
  · intro h
    have := congrArg List.length h
    simp at this

/-- Concrete figure for the C1 witness. -/
def c1Fig : List Char :=
  figEnv "\n  ".toList "[width=0.45]\x7bimgA.png".toList "\n  ".toList
    "fig:x_a".toList "\n  ".toList "[width=0.45]\x7bimgB.png".toList
    "\n  ".toList "fig:x_b".toList "\n  ".toList "fig:x".toList "\n".toList

/-- Concrete chunked document for the C1 witness. -/
def c1Doc : List (List Char) :=
  ["See ".toList, refStr "fig:x_a".toList, ", ".toList,
   refStr "fig:x_b".toList, " and ".toList, refStr "fig:x".toList,
   ".".toList]

/-- C1 witness: the theorem applied to the spec's `fig:x_a` / `fig:x_b` /
`fig:x` example. -/
theorem c1_subfigure_reference_rewrite_witness :
    labelSafe "fig:x_a".toList = true ∧
    (updateReferences c1Fig (labelStr "fig:newlbl".toList) c1Doc.flatten =
      (c1Doc.map (fun c =>
        if c = refStr "fig:x_a".toList then
          refStr "fig:newlbl".toList ++ ['(', 'a', ')']
        else if c = refStr "fig:x_b".toList then
          refStr "fig:newlbl".toList ++ ['(', 'b', ')']
        else if c = refStr "fig:x".toList then refStr "fig:newlbl".toList
        else c)).flatten ∧
      refStr "fig:newlbl".toList ++ ['(', 'a', ')'] ≠
        refStr "fig:newlbl".toList ++ ['(', 'b', ')'] ∧
      refStr "fig:newlbl".toList ++ ['(', 'a', ')'] ≠
        refStr "fig:newlbl".toList ∧
      refStr "fig:newlbl".toList ++ ['(', 'b', ')'] ≠
        refStr "fig:newlbl".toList) :=
  ⟨by decide,
    c1_subfigure_reference_rewrite
      "fig:x_a".toList "fig:x_b".toList "fig:x".toList "fig:newlbl".toList
      "\n  ".toList "\n  ".toList "\n  ".toList "\n  ".toList "\n  ".toList
      "\n".toList "[width=0.45]\x7bimgA.png".toList
      "[width=0.45]\x7bimgB.png".toList
      (labelStr "fig:newlbl".toList) c1Doc
      (by decide) (by decide) (by decide) (by decide)
      (by decide) (by decide) (by decide) (by decide) (by decide) (by decide)
      (by decide) (by decide)
      (by decide) (by decide) (by decide) (by decide) (by decide) (by decide)
      (by decide)
      (by
        intro c hc
        simp only [c1Doc] at hc
        fin_cases hc
        · exact Or.inr (Or.inr (Or.inr ⟨bsFree_transparent (by decide),
            bsFree_transparent (by decide), bsFree_transparent (by decide)⟩))
        · exact Or.inl rfl
        · exact Or.inr (Or.inr (Or.inr ⟨bsFree_transparent (by decide),
            bsFree_transparent (by decide), bsFree_transparent (by decide)⟩))
        · exact Or.inr (Or.inl rfl)
        · exact Or.inr (Or.inr (Or.inr ⟨bsFree_transparent (by decide),
            bsFree_transparent (by decide), bsFree_transparent (by decide)⟩))
        · exact Or.inr (Or.inr (Or.inl rfl))
        · exact Or.inr (Or.inr (Or.inr ⟨bsFree_transparent (by decide),
            bsFree_transparent (by decide), bsFree_transparent (by decide)⟩)))⟩

/-! ## Environment replacement (`ContentModifier._replace_environments`,
`ContentModifier._create_new_environment`)

`TexPatterns.CAPTION` is the balanced-brace recursive regex
`\caption\{([^{}]*(?:\{(?1)\}[^{}]*)*)\}` under DOTALL: on
balanced-brace caption bodies it captures exactly the text up to the
matching close brace, rendered here with the same depth scanner used by
`_extract_braced_segment`. -/

def capTag : List Char := "\\caption\x7b".toList

/-- `regex.findall(CAPTION, s, DOTALL)` captures. -/
def findCaptionsAux : Nat → List Char → List (List Char)
  | _ + 1, [] => []
  | k + 1, _ :: rest => findCaptionsAux k rest
  | 0, [] => []
  | 0, c :: rest =>
    if capTag.isPrefixOf (c :: rest) then
      match braceLoopOff ((c :: rest).drop (capTag.length - 1)) 0 with
      | some mo =>
        (((c :: rest).drop capTag.length).take (mo - 1)) ::
          findCaptionsAux (capTag.length - 1 + mo) rest
      | none => findCaptionsAux (capTag.length - 1) rest
    else findCaptionsAux 0 rest

def findCaptions (s : List Char) : List (List Char) := findCaptionsAux 0 s

/-- `Path(filename).stem` for plain file names: strip the last
dot-extension when present. -/
def pathStem (f : List Char) : List Char :=
  match pyFindIdx (fun c => c == '.') f.reverse with
  | none => f
  | some i => f.take (f.length - 1 - i)

/-- `TextProcessor.sanitize_filename`. -/
def sanitizeFilename (f : List Char) : List Char :=
  f.map (fun c =>
    if c ∈ ['\\', '/', '*', '?', ':', '"', '<', '>', '|'] then '_' else c)

/-- The template handed to `_replace_environments`: the two bundled
templates are recognised by identity, anything else falls through to the
error branch of `_create_new_environment`. -/
inductive EnvTemplate where
  | multifig
  | modifiedTab
  | custom (t : List Char)

/-- `TexTemplates.MULTIFIG_FIGENV % (png, caption, label)`. -/
def multifigFigenv (png caption label : List Char) : List Char :=
  "\n\\begin\x7bfigure\x7d[htbp]\n    \\centering\n    \\includegraphics[width=\\linewidth]\x7b".toList
    ++ png ++ "\x7d\n    \\caption\x7b".toList ++ caption
    ++ "\x7d\n    \\label\x7b".toList ++ label
    ++ "\x7d\n\\end\x7bfigure\x7d\n".toList

/-- `TexTemplates.MODIFIED_TABENV % (caption, label, png)`. -/
def modifiedTabenv (caption label png : List Char) : List Char :=
  "\n\\begin\x7btable\x7d[htbp]\n    \\centering\n    \\caption\x7b".toList
    ++ caption ++ "\x7d\n    \\label\x7b".toList ++ label
    ++ "\x7d\n    \\begin\x7btabular\x7d\x7bl\x7d\n    \\includegraphics[width=\\linewidth]\x7b".toList
    ++ png
    ++ "\x7d\n    \\end\x7btabular\x7d\n\\end\x7btable\x7d\n".toList

/-- The caption `_create_new_environment` extracts (last match, else ""). -/
def captionOf (content : List Char) : List Char :=
  ((findCaptions content).getLast?).getD []

/-- `ContentModifier._create_new_environment`. -/
def createNewEnvironment (origContent filename : List Char)
    (template : EnvTemplate) (labelPrefix : List Char) : Option (List Char) :=
  let caption := captionOf origContent
  let baseName := pathStem filename
  let safeLabel := sanitizeFilename baseName
  let newLabel := labelPrefix ++ ':' :: safeLabel
  let pngFilename := baseName ++ ".png".toList
  match template with
  | .multifig => some (multifigFigenv pngFilename caption newLabel)
  | .modifiedTab => some (modifiedTabenv caption newLabel pngFilename)
  | .custom _ => none

/-- The per-index filename mapping (`created_files` dict). -/
def lookupFile (fs : List (Nat × List Char)) (i : Nat) : Option (List Char) :=
  (fs.find? (fun p => p.1 == i)).map (·.2)

/-- One iteration of the loop in `_replace_environments` for
`(index, original_content)`.  (The `processed_indices` bookkeeping of the
source is dead code for an `enumerate` loop and is omitted.) -/
def replaceStep (template : EnvTemplate) (labelPrefix : List Char)
    (createdFiles : List (Nat × List Char)) (doc : List Char)
    (ic : Nat × List Char) : List Char :=
  match lookupFile createdFiles ic.1 with
  | none => doc
  | some filename =>
    match createNewEnvironment ic.2 filename template labelPrefix with
    | none => doc
    | some newEnv =>
      if containsSub ic.2 doc then
        updateReferences ic.2 newEnv (replaceFirst ic.2 newEnv doc)
      else doc

/-- `ContentModifier._replace_environments`. -/
def replaceEnvironments (origContents : List (List Char))
    (createdFiles : List (Nat × List Char)) (template : EnvTemplate)
    (labelPrefix : List Char) (doc : List Char) : List Char :=
  origContents.enum.foldl (replaceStep template labelPrefix createdFiles) doc

/-- C8: a float with a generated artifact is replaced at the first
remaining occurrence of its literal text by the environment built from
the image inclusion, the original caption and the freshly derived label;
a float whose text no longer occurs (or without an artifact) leaves the
document unchanged, and no branch is fatal. -/
theorem c8_replace_first_or_skip (template : EnvTemplate)
    (labelPrefix : List Char) (createdFiles : List (Nat × List Char))
    (doc c : List Char) (i : Nat) :
    (containsSub c doc = false →
      replaceStep template labelPrefix createdFiles doc (i, c) = doc) ∧
    (lookupFile createdFiles i = none →
      replaceStep template labelPrefix createdFiles doc (i, c) = doc) ∧
    (∀ filename,
      createNewEnvironment c filename EnvTemplate.multifig labelPrefix =
        some (multifigFigenv (pathStem filename ++ ".png".toList)
          (captionOf c)
          (labelPrefix ++ ':' :: sanitizeFilename (pathStem filename)))) ∧
    (∀ filename newEnv,
      lookupFile createdFiles i = some filename →
      createNewEnvironment c filename template labelPrefix = some newEnv →
      containsSub c doc = true →
      replaceStep template labelPrefix createdFiles doc (i, c) =
        updateReferences c newEnv (replaceFirst c newEnv doc)) ∧
    replaceEnvironments [c] createdFiles template labelPrefix doc =
      replaceStep template labelPrefix createdFiles doc (0, c) := by
  refine ⟨?_, ?_, ?_, ?_, ?_⟩
  · intro h
    simp only [replaceStep]
    split
    · rfl
    · split
      · rfl
      · rw [if_neg (by simp [h])]
  · intro h
    simp only [replaceStep]
    rw [h]
  · intro filename
    rfl
  · intro filename newEnv h1 h2 h3
    simp only [replaceStep]
    rw [h1]
    dsimp only
    rw [h2]
    dsimp only
    rw [if_pos h3]
  · rfl

/-- C8 witness: the theorem applied to a concrete one-figure document. -/
theorem c8_replace_first_or_skip_witness :
    containsSub "ABSENT".toList "body".toList = false ∧
    replaceStep EnvTemplate.multifig "fig".toList [(0, "fig_t.tex".toList)]
      "body".toList (0, "ABSENT".toList) = "body".toList :=
  ⟨by decide,
    (c8_replace_first_or_skip EnvTemplate.multifig "fig".toList
      [(0, "fig_t.tex".toList)] "body".toList "ABSENT".toList 0).1
      (by decide)⟩

/-! ## Asset validation (`PatternMatcher.extract_includegraphics_paths`,
`PatternMatcher.extract_graphicspaths`, `SubfileGenerator._asset_exists`,
`SubfileGenerator._resolve_local_graphicspaths`,
`SubfileGenerator._validate_graphic_assets`)

File-system paths are abstracted to strings: `Path(a) / Path(b)` becomes
`a ++ "/" ++ b`, `Path.is_absolute()` becomes a leading `/`, and
`Path.resolve()` is the identity (the roots and entries quantified over
are taken already canonical); the file system itself is the list of
paths of the files that exist.  `base_dirs = [input dir, *include dirs]`
is passed as a parameter. -/

/-- The regex whitespace class `\s` (ASCII part). -/
def pySpace (c : Char) : Bool :=
  c == ' ' || c == '\t' || c == '\n' || c == '\r' || c == '\x0b' || c == '\x0c'

/-- `Path(p).name`: the part after the last slash. -/
def lastComponent (p : List Char) : List Char :=
  match pyFindIdx (fun c => c == '/') p.reverse with
  | none => p
  | some i => p.drop (p.length - i)

/-- `Path(p).suffix`: the last dot-extension of the final component,
empty when the last dot is leading or trailing in that component. -/
def pathSuffix (p : List Char) : List Char :=
  match pyFindIdx (fun c => c == '.') (lastComponent p).reverse with
  | none => []
  | some i =>
    if 0 < (lastComponent p).length - 1 - i ∧
        (lastComponent p).length - 1 - i + 1 < (lastComponent p).length then
      (lastComponent p).drop ((lastComponent p).length - 1 - i)
    else []

/-- `SubfileGenerator._supported_image_extensions`. -/
def supportedImageExtensions : List (List Char) :=
  [".pdf".toList, ".PDF".toList, ".ai".toList, ".AI".toList, ".png".toList,
    ".PNG".toList, ".jpg".toList, ".JPG".toList, ".jpeg".toList,
    ".JPEG".toList, ".jp2".toList, ".JP2".toList, ".jpf".toList,
    ".JPF".toList, ".bmp".toList, ".BMP".toList, ".ps".toList, ".PS".toList,
    ".eps".toList, ".EPS".toList, ".mps".toList, ".MPS".toList]

/-- The `\{([^{}]+)\}` part of `INCLUDEGRAPHICS_PATH`: expect an opening
brace, a nonempty brace-free capture, and the closing brace; `consumed`
counts the characters already matched before the brace. -/
def igBrace (s : List Char) (consumed : Nat) : Option (List Char × Nat) :=
  match s with
  | '\x7b' :: t =>
    let cap := t.takeWhile (fun c => c != '\x7b' && c != '\x7d')
    if cap.isEmpty then none
    else
      match t.drop cap.length with
      | '\x7d' :: _ => some (cap, consumed + 1 + cap.length + 1)
      | _ => none
  | _ => none

/-- The `\s*(?:\[[^\]]*\])?\s*\{([^{}]+)\}` tail of
`INCLUDEGRAPHICS_PATH`, applied right after the literal
`\includegraphics`: returns the capture and the number of characters
consumed after the tag. -/
def igMatchAfter (s : List Char) : Option (List Char × Nat) :=
  let n1 := (s.takeWhile pySpace).length
  match s.drop n1 with
  | '[' :: t =>
    let inner := t.takeWhile (fun c => c != ']')
    match t.drop inner.length with
    | ']' :: t2 =>
      let n2 := (t2.takeWhile pySpace).length
      igBrace (t2.drop n2) (n1 + 1 + inner.length + 1 + n2)
    | _ => none
  | s1 => igBrace s1 n1

/-- `regex.findall(INCLUDEGRAPHICS_PATH, content)`: leftmost
non-overlapping matches; a failed attempt restarts one character
further, a successful match resumes after its end. -/
def igPathsAux : Nat → List Char → List (List Char)
  | _ + 1, [] => []
  | k + 1, _ :: rest => igPathsAux k rest
  | 0, [] => []
  | 0, c :: rest =>
    if igTag.isPrefixOf (c :: rest) then
      match igMatchAfter ((c :: rest).drop igTag.length) with
      | some (cap, consumed) =>
        cap :: igPathsAux (igTag.length - 1 + consumed) rest
      | none => igPathsAux 0 rest
    else igPathsAux 0 rest

/-- `PatternMatcher.extract_includegraphics_paths`. -/
def extractIncludegraphicsPaths (content : List Char) : List (List Char) :=
  ((igPathsAux 0 content).map pyStrip).filter (fun p => !p.isEmpty)

/-- `regex.findall(r"\{([^{}]+)\}", block)` over a graphicspath block. -/
def braceGroupsAux : Nat → List Char → List (List Char)
  | _ + 1, [] => []
  | k + 1, _ :: rest => braceGroupsAux k rest
  | 0, [] => []
  | 0, c :: rest =>
    if c == '\x7b' then
      if (rest.takeWhile (fun d => d != '\x7b' && d != '\x7d')).isEmpty then
        braceGroupsAux 0 rest
      else
        match rest.drop
            (rest.takeWhile (fun d => d != '\x7b' && d != '\x7d')).length with
        | '\x7d' :: _ =>
          (rest.takeWhile (fun d => d != '\x7b' && d != '\x7d')) ::
            braceGroupsAux
              ((rest.takeWhile (fun d => d != '\x7b' && d != '\x7d')).length + 1)
              rest
        | _ => braceGroupsAux 0 rest
    else braceGroupsAux 0 rest

def braceGroups (block : List Char) : List (List Char) := braceGroupsAux 0 block

def gpTag : List Char := "\\graphicspath\x7b".toList

/-- Parse `(\{[^{}]+\}\s*)+\}` after the first group's opening brace has
been sighted; `acc` counts characters of the capture group consumed so
far, and the fuel dominates the input length. -/
def gpLoop : Nat → List Char → Nat → Option Nat
  | 0, _, _ => none
  | fuel + 1, s, acc =>
    match s with
    | '\x7d' :: _ => some acc
    | '\x7b' :: t =>
      if (t.takeWhile (fun d => d != '\x7b' && d != '\x7d')).isEmpty then none
      else
        match t.drop
            (t.takeWhile (fun d => d != '\x7b' && d != '\x7d')).length with
        | '\x7d' :: t2 =>
          gpLoop fuel (t2.drop (t2.takeWhile pySpace).length)
            (acc + 1 +
              (t.takeWhile (fun d => d != '\x7b' && d != '\x7d')).length +
              1 + (t2.takeWhile pySpace).length)
        | _ => none
    | _ => none

/-- Parse `((?:\s*\{[^{}]+\}\s*)+)\}` right after `\graphicspath{`:
returns the length of the captured block (up to, excluding, the final
closing brace). -/
def gpBlockLen (s : List Char) : Option Nat :=
  match s.drop (s.takeWhile pySpace).length with
  | '\x7b' :: _ =>
    gpLoop (s.length + 1) (s.drop (s.takeWhile pySpace).length)
      (s.takeWhile pySpace).length
  | _ => none

/-- `regex.findall(GRAPHICSPATH, content, DOTALL)` captures. -/
def gpBlocksAux : Nat → List Char → List (List Char)
  | _ + 1, [] => []
  | k + 1, _ :: rest => gpBlocksAux k rest
  | 0, [] => []
  | 0, c :: rest =>
    if gpTag.isPrefixOf (c :: rest) then
      match gpBlockLen ((c :: rest).drop gpTag.length) with
      | some n =>
        (((c :: rest).drop gpTag.length).take n) ::
          gpBlocksAux (gpTag.length + n) rest
      | none => gpBlocksAux 0 rest
    else gpBlocksAux 0 rest

/-- `PatternMatcher.extract_graphicspaths` (entries of the latest
`\graphicspath`, stripped, empties dropped). -/
def extractGraphicspaths (content : List Char) : List (List Char) :=
  match (gpBlocksAux 0 content).getLast? with
  | none => []
  | some block =>
    ((braceGroups block).map pyStrip).filter (fun d => !d.isEmpty)

/-- Order-preserving de-duplication (the `seen` set idiom). -/
def dedupAux : List (List Char) → List (List Char) → List (List Char)
  | _, [] => []
  | seen, x :: xs =>
    if seen.contains x then dedupAux seen xs
    else x :: dedupAux (x :: seen) xs

def pyDedup (l : List (List Char)) : List (List Char) := dedupAux [] l

/-- `SubfileGenerator._resolve_local_graphicspaths`. -/
def localGraphicspaths (baseDirs : List (List Char)) (content : List Char) :
    List (List Char) :=
  if (extractGraphicspaths content).isEmpty then []
  else
    pyDedup ((extractGraphicspaths content).flatMap (fun e =>
      if e.head? == some '/' then [e]
      else baseDirs.map (fun b => b ++ '/' :: e)))

/-- The candidate bases of `_asset_exists`: the path itself when
absolute, otherwise each search root joined with it. -/
def assetBases (roots : List (List Char)) (p : List Char) :
    List (List Char) :=
  if p.head? == some '/' then [p] else roots.map (fun r => r ++ '/' :: p)

/-- The candidate files `_asset_exists` probes: the bases themselves for
a suffixed name, every supported extension appended otherwise. -/
def assetCandidates (roots : List (List Char)) (p : List Char) :
    List (List Char) :=
  if (pathSuffix p).isEmpty then
    (assetBases roots p).flatMap
      (fun b => supportedImageExtensions.map (fun e => b ++ e))
  else assetBases roots p

/-- `SubfileGenerator._asset_exists`. -/
def assetExists (fs roots : List (List Char)) (asset : List Char) : Bool :=
  if (pyStrip asset).isEmpty then true
  else (assetCandidates roots (pyStrip asset)).any (fun c => fs.contains c)

/-- Modelled from the spec: an `\includegraphics` target is missing when
it resolves to no existing file under any search root, trying the
stated name as-is and, when it is extensionless, each supported image
extension. -/
def specAssetMissing (fs roots : List (List Char)) (asset : List Char) :
    Bool :=
  (assetBases roots asset ++
    (if (pathSuffix asset).isEmpty then
      (assetBases roots asset).flatMap
        (fun b => supportedImageExtensions.map (fun e => b ++ e))
     else [])).all (fun c => !fs.contains c)

/-- Decimal digits of a natural number. -/
def natToCharsAux : Nat → Nat → List Char → List Char
  | 0, _, acc => acc
  | fuel + 1, n, acc =>
    if n < 10 then Char.ofNat (48 + n % 10) :: acc
    else natToCharsAux fuel (n / 10) (Char.ofNat (48 + n % 10) :: acc)

def natToChars (n : Nat) : List Char := natToCharsAux (n + 1) n []

/-- The per-asset descriptor `f"{context} #{index + 1}: {image_path}"`
(`i` is the 0-based float index). -/
def assetDescriptor (context : List Char) (i : Nat) (p : List Char) :
    List Char :=
  context ++ " #".toList ++ natToChars (i + 1) ++ ": ".toList ++ p

/-- The `missing` list accumulated by `_validate_graphic_assets`; the
`Nat` argument is the 0-based index of the first float of `contents`. -/
def missingAssets (fs globalRoots baseDirs : List (List Char))
    (context : List Char) : Nat → List (List Char) → List (List Char)
  | _, [] => []
  | i, c :: rest =>
    (if (extractIncludegraphicsPaths c).isEmpty then []
     else
       (extractIncludegraphicsPaths c).filterMap (fun p =>
         if assetExists fs (localGraphicspaths baseDirs c ++ globalRoots) p
         then none
         else some (assetDescriptor context i p)))
    ++ missingAssets fs globalRoots baseDirs context (i + 1) rest

/-- Python `sep.join(items)`. -/
def joinSep (sep : List Char) : List (List Char) → List Char
  | [] => []
  | [x] => x
  | x :: y :: xs => x ++ sep ++ joinSep sep (y :: xs)

/-- `SubfileGenerator._validate_graphic_assets`: `Except.error` models
the raised `FileNotFoundError` (its message enumerates every missing
asset); `generate_figure_subfiles` / `generate_table_subfiles` run this
before generating any subfile, so the error precedes all compilation. -/
def validateGraphicAssets (fs globalRoots baseDirs : List (List Char))
    (contents : List (List Char)) (context : List Char) :
    Except (List Char) Unit :=
  if contents.isEmpty then Except.ok ()
  else if (missingAssets fs globalRoots baseDirs context 0 contents).isEmpty
  then Except.ok ()
  else Except.error
    ("Missing graphic assets detected before compilation:\n".toList ++
      joinSep ['\n']
        ((missingAssets fs globalRoots baseDirs context 0 contents).map
          (fun m => "  - ".toList ++ m)) ++
      "\nEnsure all referenced files exist in the graphics path.".toList)

theorem dropWhile_head_false (p : Char → Bool) :
    ∀ (l : List Char) (a : Char) (t : List Char),
      l.dropWhile p = a :: t → p a = false := by
  intro l
  induction l with
  | nil => intro a t h; simp at h
  | cons b l ih =>
    intro a t h
    by_cases hb : p b = true
    · rw [List.dropWhile_cons, if_pos hb] at h
      exact ih _ _ h
    · rw [List.dropWhile_cons, if_neg hb] at h
      cases h
      simpa using hb

theorem dropWhile_append_last (p : Char → Bool) (a : Char)
    (h : p a = false) :
    ∀ u : List Char, ∃ v, List.dropWhile p (u ++ [a]) = v ++ [a] := by
  intro u
  induction u with
  | nil => exact ⟨[], by simp [List.dropWhile_cons, h]⟩
  | cons b u ih =>
    by_cases hb : p b = true
    · obtain ⟨v, hv⟩ := ih
      exact ⟨v, by simp [List.dropWhile_cons, hb, hv]⟩
    · exact ⟨b :: u, by simp [List.dropWhile_cons, hb]⟩

theorem dropWhile_idem (p : Char → Bool) (l : List Char) :
    (l.dropWhile p).dropWhile p = l.dropWhile p := by
  induction l with
  | nil => simp
  | cons a l ih =>
    by_cases h : p a = true
    · simp [List.dropWhile_cons, h, ih]
    · simp [List.dropWhile_cons, h]

theorem pyStrip_idem (s : List Char) : pyStrip (pyStrip s) = pyStrip s := by
  cases hA : s.dropWhile Char.isWhitespace with
  | nil => simp [pyStrip, hA]
  | cons a t =>
    have ha : Char.isWhitespace a = false := dropWhile_head_false _ _ _ _ hA
    obtain ⟨v, hv⟩ := dropWhile_append_last Char.isWhitespace a ha t.reverse
    have hps : pyStrip s = a :: v.reverse := by
      rw [pyStrip, hA]
      simp only [List.reverse_cons]
      rw [hv]
      simp
    rw [hps, pyStrip]
    rw [List.dropWhile_cons, if_neg (by simp [ha])]
    have hrev : (a :: v.reverse).reverse = v ++ [a] := by simp
    rw [hrev, ← hv, dropWhile_idem, hv]
    simp

theorem containsSub_append_right (x u t : List Char)
    (h : containsSub x t = true) : containsSub x (u ++ t) = true := by
  induction u with
  | nil => simpa using h
  | cons c u ih =>
    rw [List.cons_append, containsSub, ih]
    simp

theorem isPrefixOf_extend : ∀ (p s u : List Char),
    p.isPrefixOf s = true → p.isPrefixOf (s ++ u) = true := by
  intro p
  induction p with
  | nil => intro s u _; simp [List.isPrefixOf]
  | cons a p ih =>
    intro s u h
    cases s with
    | nil => simp [List.isPrefixOf] at h
    | cons b s =>
      simp only [List.isPrefixOf, List.cons_append, Bool.and_eq_true] at h ⊢
      exact ⟨h.1, ih _ _ h.2⟩

theorem containsSub_append_left (x t u : List Char)
    (h : containsSub x t = true) : containsSub x (t ++ u) = true := by
  induction t with
  | nil =>
    rw [containsSub] at h
    cases u with
    | nil => exact h
    | cons c u =>
      rw [List.nil_append, containsSub]
      have hx : x = [] := by simpa using h
      subst hx
      simp [List.isPrefixOf]
  | cons c t ih =>
    rw [containsSub] at h
    rw [List.cons_append, containsSub]
    rcases Bool.or_eq_true_iff.mp h with h1 | h2
    · have hext := isPrefixOf_extend x (c :: t) u h1
      rw [List.cons_append] at hext
      rw [hext]
      simp
    · rw [ih h2]
      simp

theorem containsSub_refl (x : List Char) : containsSub x x = true := by
  cases x with
  | nil => rfl
  | cons c t =>
    rw [containsSub]
    have := isPrefixOf_append (c :: t) []
    simp only [List.append_nil] at this
    rw [this]
    simp

theorem containsSub_joinSep_mem (pre sep m : List Char) :
    ∀ l : List (List Char), m ∈ l →
      containsSub m (joinSep sep (l.map (fun x => pre ++ x))) = true := by
  intro l
  induction l with
  | nil => intro h; simp at h
  | cons a rest ih =>
    intro h
    rcases List.mem_cons.mp h with rfl | hmem
    · cases rest with
      | nil =>
        simp only [List.map_cons, List.map_nil, joinSep]
        exact containsSub_append_right _ _ _ (containsSub_refl m)
      | cons r0 rest' =>
        simp only [List.map_cons, joinSep]
        rw [List.append_assoc, List.append_assoc]
        exact containsSub_append_right _ _ _
          (containsSub_append_left _ _ _ (containsSub_refl m))
    · cases rest with
      | nil => simp at hmem
      | cons r0 rest' =>
        simp only [List.map_cons, joinSep]
        rw [List.append_assoc, List.append_assoc]
        refine containsSub_append_right _ _ _ ?_
        refine containsSub_append_right _ _ _ ?_
        refine containsSub_append_right _ _ _ ?_
        simpa using ih hmem

theorem extract_mem_strip {c p : List Char}
    (hp : p ∈ extractIncludegraphicsPaths c) : pyStrip p = p ∧ p ≠ [] := by
  rw [extractIncludegraphicsPaths, List.mem_filter] at hp
  obtain ⟨hp1, hp2⟩ := hp
  constructor
  · obtain ⟨q, _, rfl⟩ := List.mem_map.mp hp1
    exact pyStrip_idem q
  · intro h
    subst h
    simp at hp2

theorem assetExists_false_of_specMissing (fs roots : List (List Char))
    (p : List Char) (hstrip : pyStrip p = p) (hne : p ≠ [])
    (h : specAssetMissing fs roots p = true) :
    assetExists fs roots p = false := by
  rw [assetExists, hstrip, if_neg (by simpa using hne)]
  rw [specAssetMissing, List.all_eq_true] at h
  by_contra hcon
  rw [Bool.not_eq_false, List.any_eq_true] at hcon
  obtain ⟨x, hx, hfs⟩ := hcon
  rw [assetCandidates] at hx
  have hx2 : x ∈ assetBases roots p ++
      (if (pathSuffix p).isEmpty = true then
        (assetBases roots p).flatMap
          (fun b => supportedImageExtensions.map (fun e => b ++ e))
       else []) := by
    by_cases hsuf : (pathSuffix p).isEmpty = true
    · rw [if_pos hsuf]
      rw [if_pos hsuf] at hx
      exact List.mem_append_right _ hx
    · rw [if_neg hsuf] at hx
      exact List.mem_append_left _ hx
  have := h x hx2
  rw [hfs] at this
  simp at this

theorem assetDescriptor_mem_missing (fs globalRoots baseDirs :
    List (List Char)) (context : List Char) :
    ∀ (contents : List (List Char)) (start i : Nat) (c p : List Char),
      contents[i]? = some c →
      p ∈ extractIncludegraphicsPaths c →
      assetExists fs (localGraphicspaths baseDirs c ++ globalRoots) p =
        false →
      assetDescriptor context (start + i) p ∈
        missingAssets fs globalRoots baseDirs context start contents := by
  intro contents
  induction contents with
  | nil =>
    intro start i c p hc
    simp at hc
  | cons d rest ih =>
    intro start i c p hc hp hex
    cases i with
    | zero =>
      simp only [List.getElem?_cons_zero, Option.some.injEq] at hc
      subst hc
      rw [missingAssets]
      apply List.mem_append_left
      rw [if_neg]
      · exact List.mem_filterMap.mpr ⟨p, hp, by rw [hex]; simp⟩
      · have hne : extractIncludegraphicsPaths d ≠ [] :=
          List.ne_nil_of_mem hp
        simpa [List.isEmpty_iff] using hne
    | succ j =>
      simp only [List.getElem?_cons_succ] at hc
      have h2 := ih (start + 1) j c p hc hp hex
      rw [missingAssets]
      apply List.mem_append_right
      have harith : start + (j + 1) = start + 1 + j := by omega
      rw [harith]
      exact h2

/-- C3: when at least one `\includegraphics` target of some float is
missing under every search root (trying the stated name as-is and, when
it is extensionless, each supported image extension), validation
returns a single `Except.error` — one raised failure, before any
subfile generation or compilation — and that single message contains
the `context #index: path` descriptor of every missing asset of every
float. -/
theorem c3_missing_asset_single_failure
    (fs globalRoots baseDirs : List (List Char))
    (contents : List (List Char)) (context : List Char)
    (i : Nat) (c p : List Char)
    (hc : contents[i]? = some c)
    (hp : p ∈ extractIncludegraphicsPaths c)
    (hmiss : specAssetMissing fs
      (localGraphicspaths baseDirs c ++ globalRoots) p = true) :
    ∃ msg,
      validateGraphicAssets fs globalRoots baseDirs contents context =
        Except.error msg ∧
      ∀ j d q, contents[j]? = some d →
        q ∈ extractIncludegraphicsPaths d →
        specAssetMissing fs
          (localGraphicspaths baseDirs d ++ globalRoots) q = true →
        containsSub (assetDescriptor context j q) msg = true := by
  have key : ∀ j d q, contents[j]? = some d →
      q ∈ extractIncludegraphicsPaths d →
      specAssetMissing fs
        (localGraphicspaths baseDirs d ++ globalRoots) q = true →
      assetDescriptor context j q ∈
        missingAssets fs globalRoots baseDirs context 0 contents := by
    intro j d q hj hq hm
    obtain ⟨hstrip, hne⟩ := extract_mem_strip hq
    have hex := assetExists_false_of_specMissing _ _ _ hstrip hne hm
    have h0 := assetDescriptor_mem_missing fs globalRoots baseDirs context
      contents 0 j d q hj hq hex
    simpa using h0
  have hmem := key i c p hc hp hmiss
  have hmne : missingAssets fs globalRoots baseDirs context 0 contents ≠
      [] := List.ne_nil_of_mem hmem
  have hcne : contents ≠ [] := by
    intro h
    subst h
    simp at hc
  refine ⟨"Missing graphic assets detected before compilation:\n".toList ++
      joinSep ['\n']
        ((missingAssets fs globalRoots baseDirs context 0 contents).map
          (fun m => "  - ".toList ++ m)) ++
      "\nEnsure all referenced files exist in the graphics path.".toList,
    ?_, ?_⟩
  · rw [validateGraphicAssets,
      if_neg (by simpa [List.isEmpty_iff] using hcne),
      if_neg (by simpa [List.isEmpty_iff] using hmne)]
  · intro j d q hj hq hm
    have hmem2 := key j d q hj hq hm
    have hjoin := containsSub_joinSep_mem ("  - ".toList) ['\n']
      (assetDescriptor context j q) _ hmem2
    rw [List.append_assoc]
    exact containsSub_append_right _ _ _
      (containsSub_append_left _ _ _ hjoin)

def c3FloatA : List Char :=
  "\\begin\x7bfigure\x7d\n\\includegraphics[width=\\linewidth]\x7bimgA\x7d\n\\end\x7bfigure\x7d".toList

def c3FloatB : List Char :=
  "\\begin\x7bfigure\x7d\n\\includegraphics\x7bimgB\x7d\n\\end\x7bfigure\x7d".toList

/-- C3 witness: two floats, each referencing one nonexistent asset,
yield one failure whose message enumerates both. -/
theorem c3_missing_asset_single_failure_witness :
    ∃ msg,
      validateGraphicAssets [] ["/g".toList] ["/doc".toList]
        [c3FloatA, c3FloatB] "figure".toList = Except.error msg ∧
      containsSub ("figure #1: imgA".toList) msg = true ∧
      containsSub ("figure #2: imgB".toList) msg = true := by
  obtain ⟨msg, hmsg, henum⟩ :=
    c3_missing_asset_single_failure [] ["/g".toList] ["/doc".toList]
      [c3FloatA, c3FloatB] "figure".toList 0 c3FloatA ("imgA".toList)
      (by decide) (by decide) (by decide)
  refine ⟨msg, hmsg, ?_, ?_⟩
  · have h := henum 0 c3FloatA ("imgA".toList) (by decide) (by decide)
      (by decide)
    have hd : assetDescriptor "figure".toList 0 "imgA".toList =
        "figure #1: imgA".toList := by decide
    rwa [hd] at h
  · have h := henum 1 c3FloatB ("imgB".toList) (by decide) (by decide)
      (by decide)
    have hd : assetDescriptor "figure".toList 1 "imgB".toList =
        "figure #2: imgB".toList := by decide
    rwa [hd] at h

/-! ## Include resolution (`LatexParser._process_includes`,
`LatexParser._get_include_filename`, `LatexParser._read_include_file`,
`LatexParser._register_include_directory`)

The file system is an association list from file name (relative to the
directory of the input file, which never changes) to raw content;
reading never fails for a file present in that list, and a file absent
from it does not exist. -/

def includeTag : List Char := "\\include\x7b".toList

/-- The `(.+?)\}` tail of `TexPatterns.INCLUDE` right after
`\include{`: lazily capture at least one non-newline character up to
the first closing brace; returns the capture and the characters
consumed after the tag. -/
def captureInclude (t : List Char) : Option (List Char × Nat) :=
  match t with
  | [] => none
  | c0 :: rest =>
    if c0 == '\n' then none
    else
      match pyFindIdx (fun c => c == '\x7d')
          (rest.takeWhile (fun c => c != '\n')) with
      | some j =>
        some (c0 :: (rest.takeWhile (fun c => c != '\n')).take j, 1 + j + 1)
      | none => none

/-- `regex.findall(INCLUDE, content)` captures. -/
def findIncludesAux : Nat → List Char → List (List Char)
  | _ + 1, [] => []
  | k + 1, _ :: rest => findIncludesAux k rest
  | 0, [] => []
  | 0, c :: rest =>
    if includeTag.isPrefixOf (c :: rest) then
      match captureInclude ((c :: rest).drop includeTag.length) with
      | some (cap, consumed) =>
        cap :: findIncludesAux (includeTag.length - 1 + consumed) rest
      | none => findIncludesAux 0 rest
    else findIncludesAux 0 rest

def findIncludes (content : List Char) : List (List Char) :=
  findIncludesAux 0 content

/-- `f"\\include{{{include_name}}}"`. -/
def includeDirective (name : List Char) : List Char :=
  includeTag ++ name ++ ['\x7d']

/-- `LatexParser._get_include_filename`. -/
def getIncludeFilename (name : List Char) : List Char :=
  if (".tex".toList).isSuffixOf (pyLower name) then name
  else name ++ ".tex".toList

/-- `Path(p).parent`: everything before the last slash. -/
def pathParent (p : List Char) : List Char :=
  match pyFindIdx (fun c => c == '/') p.reverse with
  | none => p
  | some i => p.take (p.length - 1 - i)

def lookupContent (fs : List (List Char × List Char)) (fn : List Char) :
    Option (List Char) :=
  (fs.find? (fun q => q.1 == fn)).map (·.2)

/-- The per-pass loop state of `_process_includes`. -/
structure IncState where
  doc : List Char
  made : Bool
  processed : List (List Char)
  includeDirs : List (List Char)
deriving DecidableEq

/-- One iteration of the `for include_name in includes_found` loop. -/
def includeStep (docDir : List Char) (fs : List (List Char × List Char))
    (st : IncState) (name : List Char) : IncState :=
  if st.processed.contains (includeDirective name) then st
  else
    match lookupContent fs (getIncludeFilename name) with
    | some raw =>
      { doc := replaceFirst (includeDirective name) (removeComments raw)
          st.doc
        made := true
        processed := st.processed ++ [includeDirective name]
        includeDirs :=
          if st.includeDirs.contains
              (pathParent (docDir ++ '/' :: getIncludeFilename name))
          then st.includeDirs
          else st.includeDirs ++
            [pathParent (docDir ++ '/' :: getIncludeFilename name)] }
    | none =>
      { doc := replaceFirst (includeDirective name)
          ("% Include file not found: ".toList ++
            getIncludeFilename name ++ " %".toList) st.doc
        made := st.made
        processed := st.processed ++ [includeDirective name]
        includeDirs := st.includeDirs }

/-- The `while True` loop of `_process_includes`; the fuel bounds the
number of passes (the source loop has no such bound and can cycle only
by making a replacement every pass). -/
def processIncludesAux (docDir : List Char)
    (fs : List (List Char × List Char)) :
    Nat → List Char → List (List Char) → List Char × List (List Char)
  | 0, doc, dirs => (doc, dirs)
  | fuel + 1, doc, dirs =>
    if (findIncludes doc).isEmpty then (doc, dirs)
    else
      let st := (findIncludes doc).foldl (includeStep docDir fs)
        ⟨doc, false, [], dirs⟩
      if st.made then processIncludesAux docDir fs fuel st.doc st.includeDirs
      else (st.doc, st.includeDirs)

/-- `LatexParser._process_includes` (also yielding the registered
include directories). -/
def processIncludes (docDir : List Char)
    (fs : List (List Char × List Char)) (fuel : Nat) (doc : List Char) :
    List Char × List (List Char) :=
  processIncludesAux docDir fs fuel doc []

/-! ## Graphics path determination (`LatexParser._determine_graphicspath`,
`LatexParser._resolve_graphicspath_entries`,
`SubfileGenerator._build_asset_search_roots`)

`Path` trailing-slash normalization is abstracted away by writing
graphicspath entries without a trailing slash. -/

/-- `LatexParser._resolve_graphicspath_entries`. -/
def resolveGraphicspathEntries (entries baseDirs : List (List Char)) :
    List (List Char) :=
  pyDedup (entries.flatMap (fun e =>
    if e.head? == some '/' then [e]
    else baseDirs.map (fun b => b ++ '/' :: e)))

/-- `LatexParser._determine_graphicspath` (the `graphicspaths` list it
stores; `base_directory` is the input file's directory). -/
def determineGraphicspaths (docDir : List Char) (cleanContent : List Char)
    (includeDirs : List (List Char)) : List (List Char) :=
  if (resolveGraphicspathEntries (extractGraphicspaths cleanContent)
      (docDir :: includeDirs)).isEmpty
  then [docDir]
  else resolveGraphicspathEntries (extractGraphicspaths cleanContent)
    (docDir :: includeDirs)

/-- `SubfileGenerator._build_asset_search_roots`. -/
def buildAssetSearchRoots (docDir : List Char)
    (graphicspaths rawEntries includeDirs : List (List Char)) :
    List (List Char) :=
  pyDedup (graphicspaths ++
    rawEntries.flatMap (fun e =>
      if e.head? == some '/' then [e]
      else (docDir :: includeDirs).map (fun b => b ++ '/' :: e)) ++
    (docDir :: includeDirs))

def c2DocDir : List Char := "/doc".toList

def c2ChapRaw : List Char := "\\graphicspath\x7b\x7bb\x7d\x7d\nchapter\n".toList

def c2MainRaw : List Char :=
  "\\graphicspath\x7b\x7ba\x7d\x7d\n\\include\x7bchap\x7d\n\\includegraphics\x7bimgM\x7d\n".toList

def c2Fs : List (List Char × List Char) := [("chap.tex".toList, c2ChapRaw)]

def c2Files : List (List Char) := ["/doc/b/imgM.png".toList]

def c2Clean : List Char :=
  (processIncludes c2DocDir c2Fs 3 (removeComments c2MainRaw)).1

def c2IncDirs : List (List Char) :=
  (processIncludes c2DocDir c2Fs 3 (removeComments c2MainRaw)).2

def c2Roots : List (List Char) :=
  buildAssetSearchRoots c2DocDir
    (determineGraphicspaths c2DocDir c2Clean c2IncDirs)
    (extractGraphicspaths c2Clean) c2IncDirs

/-- C2 counterexample: the main document declares `\graphicspath{{a}}`
and includes a chapter declaring `\graphicspath{{b}}`; after include
splicing the chapter's declaration is the most recent one, so `b` wins
globally: the asset `imgM`, referenced from the main body and existing
only under `b`, is resolved against `/doc/b` — the spec says an asset
referenced from the main body is never resolved against `b`. -/
theorem c2_included_graphicspath_counterexample :
    "imgM".toList ∈ extractIncludegraphicsPaths c2MainRaw ∧
    ("imgM".toList ∈ extractIncludegraphicsPaths c2ChapRaw) = False ∧
    extractGraphicspaths c2Clean = ["b".toList] ∧
    c2Roots.contains "/doc/b".toList = true ∧
    assetExists c2Files c2Roots "imgM".toList = true ∧
    (∀ cand ∈ assetCandidates c2Roots "imgM".toList,
      c2Files.contains cand = true → cand = "/doc/b/imgM.png".toList) := by
  decide

def gpDecl (e : List Char) : List Char :=
  gpTag ++ '\x7b' :: e ++ '\x7d' :: ['\x7d']

def braceFree (l : List Char) : Bool :=
  l.all (fun c => c != '\x7b' && c != '\x7d')

theorem takeWhile_eq_of_all {α : Type} {p : α → Bool} {l : List α}
    (h : l.all p = true) : l.takeWhile p = l := by
  induction l with
  | nil => rfl
  | cons a t ih =>
    rw [List.all_cons, Bool.and_eq_true] at h
    rw [List.takeWhile_cons, if_pos h.1, ih h.2]

theorem gpBlocksAux_skip (a t : List Char) :
    gpBlocksAux a.length (a ++ t) = gpBlocksAux 0 t := by
  induction a with
  | nil => rfl
  | cons c rest ih => simpa [gpBlocksAux] using ih

theorem braceGroupsAux_skip (a t : List Char) :
    braceGroupsAux a.length (a ++ t) = braceGroupsAux 0 t := by
  induction a with
  | nil => rfl
  | cons c rest ih => simpa [braceGroupsAux] using ih

theorem gpTag_head : gpTag = '\\' :: "graphicspath\x7b".toList := by decide

theorem gpBlocksAux_miss {c : Char} (rest : List Char)
    (h : gpTag.isPrefixOf (c :: rest) = false) :
    gpBlocksAux 0 (c :: rest) = gpBlocksAux 0 rest := by
  rw [gpBlocksAux, h]
  simp

theorem gpBlocksAux_bsFree {g : List Char} (h : bsFree g = true)
    (t : List Char) : gpBlocksAux 0 (g ++ t) = gpBlocksAux 0 t := by
  induction g with
  | nil => rfl
  | cons c rest ih =>
    rw [bsFree, List.all_cons, Bool.and_eq_true] at h
    have hc : '\\' ≠ c := by
      intro he
      rw [← he] at h
      simp at h
    rw [List.cons_append, gpBlocksAux_miss _
      (by rw [gpTag_head]; exact isPrefixOf_cons_of_ne hc)]
    exact ih (by rw [bsFree]; exact h.2)

theorem gpBlocksAux_nil_of_bsFree {g : List Char} (h : bsFree g = true) :
    gpBlocksAux 0 g = [] := by
  have h0 := gpBlocksAux_bsFree h []
  simpa using h0

theorem gpLoop_close (m : Nat) (rest : List Char) (acc : Nat) :
    gpLoop (m + 1) ('\x7d' :: rest) acc = some acc := rfl

theorem gpLoop_decl (e rest : List Char) (he : e ≠ [])
    (hbf : braceFree e = true) (m : Nat) :
    gpLoop (m + 1 + 1) ('\x7b' :: (e ++ '\x7d' :: '\x7d' :: rest)) 0 =
      some (e.length + 2) := by
  have hcap : (e ++ '\x7d' :: '\x7d' :: rest).takeWhile
      (fun d => d != '\x7b' && d != '\x7d') = e := by
    rw [takeWhile_append_blocked (by decide) e ('\x7d' :: rest)]
    exact takeWhile_eq_of_all hbf
  rw [gpLoop]
  rw [hcap, if_neg (by simpa using he), List.drop_left]
  show gpLoop (m + 1)
      (List.drop (List.takeWhile pySpace ('\x7d' :: rest)).length
        ('\x7d' :: rest))
      (0 + 1 + e.length + 1 +
        (List.takeWhile pySpace ('\x7d' :: rest)).length) =
    some (e.length + 2)
  rw [List.takeWhile_cons, if_neg (by decide)]
  simp only [List.length_nil, List.drop_zero]
  rw [gpLoop_close]
  congr 1
  omega

theorem gpBlockLen_decl (e rest : List Char) (he : e ≠ [])
    (hbf : braceFree e = true) :
    gpBlockLen ('\x7b' :: (e ++ '\x7d' :: '\x7d' :: rest)) =
      some (e.length + 2) := by
  have hws : ('\x7b' :: (e ++ '\x7d' :: '\x7d' :: rest)).takeWhile pySpace =
      [] := by
    rw [List.takeWhile_cons, if_neg (by decide)]
  rw [gpBlockLen, hws]
  simp only [List.length_nil, List.drop_zero]
  have hlen : ('\x7b' :: (e ++ '\x7d' :: '\x7d' :: rest)).length + 1 =
      e.length + rest.length + 2 + 1 + 1 := by
    simp [List.length_cons, List.length_append]
    omega
  rw [hlen]
  exact gpLoop_decl e rest he hbf _

theorem gpBlocksAux_decl (e rest : List Char) (he : e ≠ [])
    (hbf : braceFree e = true) :
    gpBlocksAux 0 (gpDecl e ++ rest) =
      ('\x7b' :: (e ++ ['\x7d'])) :: gpBlocksAux 0 rest := by
  have hshape : gpDecl e ++ rest =
      '\\' :: ("graphicspath\x7b".toList ++
        ('\x7b' :: (e ++ '\x7d' :: '\x7d' :: rest))) := by
    rw [gpDecl, gpTag_head]
    simp
  rw [hshape, gpBlocksAux]
  have hpre : gpTag.isPrefixOf ('\\' :: ("graphicspath\x7b".toList ++
      ('\x7b' :: (e ++ '\x7d' :: '\x7d' :: rest)))) = true := by
    rw [gpTag_head]
    exact isPrefixOf_append _ _
  rw [hpre]
  simp only [if_true]
  have hdrop : ('\\' :: ("graphicspath\x7b".toList ++
      ('\x7b' :: (e ++ '\x7d' :: '\x7d' :: rest)))).drop gpTag.length =
      '\x7b' :: (e ++ '\x7d' :: '\x7d' :: rest) := by
    rw [show gpTag.length = 14 from by decide]
    simp
  rw [hdrop, gpBlockLen_decl e rest he hbf]
  dsimp only
  have htake : ('\x7b' :: (e ++ '\x7d' :: '\x7d' :: rest)).take
      (e.length + 2) = '\x7b' :: (e ++ ['\x7d']) := by
    rw [List.take_succ_cons]
    have h1 : e.length + 1 = e.length + 1 := rfl
    rw [show (e ++ '\x7d' :: '\x7d' :: rest).take (e.length + 1) =
        e ++ ('\x7d' :: '\x7d' :: rest).take 1 from List.take_append 1]
    simp
  rw [htake]
  have hskip : gpBlocksAux (gpTag.length + (e.length + 2))
      ("graphicspath\x7b".toList ++
        ('\x7b' :: (e ++ '\x7d' :: '\x7d' :: rest))) =
      gpBlocksAux 0 rest := by
    have ha := gpBlocksAux_skip
      ("graphicspath\x7b".toList ++ ('\x7b' :: (e ++ '\x7d' :: ['\x7d'])))
      rest
    have hl : ("graphicspath\x7b".toList ++
        ('\x7b' :: (e ++ '\x7d' :: ['\x7d']))).length =
        gpTag.length + (e.length + 2) := by
      rw [show gpTag.length = 14 from by decide]
      simp
      omega
    have hsh : ("graphicspath\x7b".toList ++
        ('\x7b' :: (e ++ '\x7d' :: ['\x7d']))) ++ rest =
        "graphicspath\x7b".toList ++
          ('\x7b' :: (e ++ '\x7d' :: '\x7d' :: rest)) := by
      simp
    rw [hl, hsh] at ha
    exact ha
  rw [hskip]

theorem braceGroups_single (e : List Char) (he : e ≠ [])
    (hbf : braceFree e = true) :
    braceGroups ('\x7b' :: (e ++ ['\x7d'])) = [e] := by
  have hcap : (e ++ ['\x7d']).takeWhile
      (fun d => d != '\x7b' && d != '\x7d') = e := by
    rw [takeWhile_append_blocked (by decide) e []]
    exact takeWhile_eq_of_all hbf
  rw [braceGroups, braceGroupsAux, if_pos (by decide), hcap,
    if_neg (by simpa using he), List.drop_left]
  show e :: braceGroupsAux (e.length + 1) (e ++ ['\x7d']) = [e]
  have hskip := braceGroupsAux_skip (e ++ ['\x7d']) []
  have hl : (e ++ ['\x7d']).length = e.length + 1 := by simp
  rw [hl] at hskip
  simp only [List.append_nil] at hskip
  rw [hskip]
  rfl

theorem extractGraphicspaths_two_decls (A B C e1 e2 : List Char)
    (hA : bsFree A = true) (hB : bsFree B = true) (hC : bsFree C = true)
    (he1 : e1 ≠ []) (hbf1 : braceFree e1 = true)
    (he2 : e2 ≠ []) (hbf2 : braceFree e2 = true)
    (hs2 : pyStrip e2 = e2) :
    extractGraphicspaths (A ++ gpDecl e1 ++ B ++ gpDecl e2 ++ C) =
      [e2] := by
  have hblocks : gpBlocksAux 0 (A ++ gpDecl e1 ++ B ++ gpDecl e2 ++ C) =
      [('\x7b' :: (e1 ++ ['\x7d'])), ('\x7b' :: (e2 ++ ['\x7d']))] := by
    simp only [List.append_assoc]
    rw [gpBlocksAux_bsFree hA, gpBlocksAux_decl e1 _ he1 hbf1,
      gpBlocksAux_bsFree hB, gpBlocksAux_decl e2 _ he2 hbf2,
      gpBlocksAux_nil_of_bsFree hC]
  rw [extractGraphicspaths]
  rw [hblocks]
  have hlast : [('\x7b' :: (e1 ++ ['\x7d'])),
      ('\x7b' :: (e2 ++ ['\x7d']))].getLast? =
      some ('\x7b' :: (e2 ++ ['\x7d'])) := rfl
  rw [hlast]
  dsimp only
  rw [braceGroups_single e2 he2 hbf2]
  simp only [List.map_cons, List.map_nil, hs2, List.filter]
  have hne : (!e2.isEmpty) = true := by simpa using he2
  rw [hne]

/-- C2 (amended): `\graphicspath` is global with most-recent-wins
semantics.  After include splicing, entries are read from the LAST
declaration in the combined document — whether it came from the main
file or from an included file — and the resolved graphics paths used
for every float are built from those entries alone (per-float
declarations inside a float's own content excepted). -/
theorem c2_graphicspath_last_wins
    (docDir : List Char) (includeDirs : List (List Char))
    (A B C e1 e2 : List Char)
    (hA : bsFree A = true) (hB : bsFree B = true) (hC : bsFree C = true)
    (he1 : e1 ≠ []) (hbf1 : braceFree e1 = true)
    (he2 : e2 ≠ []) (hbf2 : braceFree e2 = true)
    (hs2 : pyStrip e2 = e2) (hrel : (e2.head? == some '/') = false) :
    extractGraphicspaths (A ++ gpDecl e1 ++ B ++ gpDecl e2 ++ C) =
      [e2] ∧
    determineGraphicspaths docDir
        (A ++ gpDecl e1 ++ B ++ gpDecl e2 ++ C) includeDirs =
      pyDedup ((docDir :: includeDirs).map (fun b => b ++ '/' :: e2)) := by
  have hx := extractGraphicspaths_two_decls A B C e1 e2 hA hB hC
    he1 hbf1 he2 hbf2 hs2
  refine ⟨hx, ?_⟩
  have hres : resolveGraphicspathEntries [e2] (docDir :: includeDirs) =
      pyDedup ((docDir :: includeDirs).map (fun b => b ++ '/' :: e2)) := by
    rw [resolveGraphicspathEntries]
    have hflat : [e2].flatMap (fun e =>
        if e.head? == some '/' then [e]
        else (docDir :: includeDirs).map (fun b => b ++ '/' :: e)) =
        (docDir :: includeDirs).map (fun b => b ++ '/' :: e2) := by
      simp only [List.flatMap_cons, List.flatMap_nil, List.append_nil]
      rw [if_neg (by simp [hrel])]
    rw [hflat]
  have hemp : (pyDedup ((docDir :: includeDirs).map
      (fun b => b ++ '/' :: e2))).isEmpty = false := by
    simp only [List.map_cons]
    rw [pyDedup, dedupAux]
    simp
  rw [determineGraphicspaths, hx, hres, if_neg (by rw [hemp]; simp)]

def c2A : List Char := "x\n".toList

def c2B : List Char := "y\n".toList

def c2C : List Char := "z\n".toList

/-- C2 amended-theorem witness at a concrete two-declaration document. -/
theorem c2_graphicspath_last_wins_witness :
    extractGraphicspaths
        (c2A ++ gpDecl "a".toList ++ c2B ++ gpDecl "b".toList ++ c2C) =
      ["b".toList] ∧
    determineGraphicspaths "/doc".toList
        (c2A ++ gpDecl "a".toList ++ c2B ++ gpDecl "b".toList ++ c2C)
        ["/doc".toList] =
      pyDedup (("/doc".toList :: ["/doc".toList]).map
        (fun b => b ++ '/' :: "b".toList)) :=
  c2_graphicspath_last_wins "/doc".toList ["/doc".toList]
    c2A c2B c2C "a".toList "b".toList
    (by decide) (by decide) (by decide) (by decide) (by decide)
    (by decide) (by decide) (by decide) (by decide)

theorem includeTag_head : includeTag = '\\' :: "include\x7b".toList := by
  decide

theorem findIncludesAux_skip (a t : List Char) :
    findIncludesAux a.length (a ++ t) = findIncludesAux 0 t := by
  induction a with
  | nil => rfl
  | cons c rest ih => simpa [findIncludesAux] using ih

theorem findIncludesAux_miss {c : Char} (rest : List Char)
    (h : includeTag.isPrefixOf (c :: rest) = false) :
    findIncludesAux 0 (c :: rest) = findIncludesAux 0 rest := by
  rw [findIncludesAux, h]
  simp

theorem findIncludesAux_bsFree {g : List Char} (h : bsFree g = true)
    (t : List Char) : findIncludesAux 0 (g ++ t) = findIncludesAux 0 t := by
  induction g with
  | nil => rfl
  | cons c rest ih =>
    rw [bsFree, List.all_cons, Bool.and_eq_true] at h
    have hc : '\\' ≠ c := by
      intro he
      rw [← he] at h
      simp at h
    rw [List.cons_append, findIncludesAux_miss _
      (by rw [includeTag_head]; exact isPrefixOf_cons_of_ne hc)]
    exact ih (by rw [bsFree]; exact h.2)

theorem findIncludes_nil_of_bsFree {g : List Char} (h : bsFree g = true) :
    findIncludes g = [] := by
  have h0 := findIncludesAux_bsFree h []
  simpa [findIncludes] using h0

theorem labelSafe_argSafe {n : List Char} (h : labelSafe n = true) :
    argSafe n = true := by
  rw [argSafe, List.all_eq_true]
  intro c hc
  obtain ⟨_, h2, h3, _⟩ := labelSafe_mem h hc
  simp [h2, h3]

theorem takeWhile_append_all {α : Type} {p : α → Bool} {l : List α}
    (h : l.all p = true) (m : List α) :
    (l ++ m).takeWhile p = l ++ m.takeWhile p := by
  induction l with
  | nil => rfl
  | cons a t ih =>
    rw [List.all_cons, Bool.and_eq_true] at h
    rw [List.cons_append, List.takeWhile_cons, if_pos h.1, ih h.2]
    simp

theorem labelSafe_no_nl {n : List Char} (h : labelSafe n = true) :
    n.all (fun c => c != '\n') = true := by
  rw [List.all_eq_true]
  intro c hc
  obtain ⟨_, _, _, h4⟩ := labelSafe_mem h hc
  simpa using h4

theorem captureInclude_name {n : List Char} (hn : labelSafe n = true)
    (hne : n ≠ []) (t : List Char) :
    captureInclude (n ++ '\x7d' :: t) = some (n, n.length + 1) := by
  cases n with
  | nil => exact absurd rfl hne
  | cons c0 n' =>
    obtain ⟨_, _, _, hm4⟩ := labelSafe_mem hn (List.mem_cons_self c0 n')
    have hn' : labelSafe n' = true := by
      rw [labelSafe, List.all_cons, Bool.and_eq_true] at hn
      exact hn.2
    rw [List.cons_append, captureInclude]
    rw [if_neg (by simpa using hm4)]
    have hline : (n' ++ '\x7d' :: t).takeWhile (fun c => c != '\n') =
        n' ++ '\x7d' :: t.takeWhile (fun c => c != '\n') := by
      rw [takeWhile_append_all (labelSafe_no_nl hn'), List.takeWhile_cons,
        if_pos (by decide)]
    rw [hline, pyFindIdx_rbrace (labelSafe_argSafe hn')]
    dsimp only
    rw [List.take_left]
    have harith : 1 + n'.length + 1 = (c0 :: n').length + 1 := by
      simp
      omega
    rw [harith]

theorem findIncludesAux_directive {n : List Char} (hn : labelSafe n = true)
    (hne : n ≠ []) (t : List Char) :
    findIncludesAux 0 (includeDirective n ++ t) =
      n :: findIncludesAux 0 t := by
  have hshape : includeDirective n ++ t =
      '\\' :: ("include\x7b".toList ++ (n ++ '\x7d' :: t)) := by
    rw [includeDirective, includeTag_head]
    simp
  rw [hshape, findIncludesAux]
  have hpre : includeTag.isPrefixOf ('\\' :: ("include\x7b".toList ++
      (n ++ '\x7d' :: t))) = true := by
    rw [includeTag_head]
    exact isPrefixOf_append _ _
  rw [hpre]
  simp only [if_true]
  have hdrop : ('\\' :: ("include\x7b".toList ++
      (n ++ '\x7d' :: t))).drop includeTag.length = n ++ '\x7d' :: t := by
    rw [show includeTag.length = 9 from by decide]
    simp
  rw [hdrop, captureInclude_name hn hne]
  dsimp only
  congr 1
  have hskip := findIncludesAux_skip
    ("include\x7b".toList ++ (n ++ ['\x7d'])) t
  have hl : ("include\x7b".toList ++ (n ++ ['\x7d'])).length =
      includeTag.length - 1 + (n.length + 1) := by
    rw [show includeTag.length = 9 from by decide]
    simp
    omega
  have hsh : ("include\x7b".toList ++ (n ++ ['\x7d'])) ++ t =
      "include\x7b".toList ++ (n ++ '\x7d' :: t) := by
    simp
  rw [hl, hsh] at hskip
  exact hskip

theorem replaceFirst_head {pat : List Char} (hne : pat ≠ [])
    (rep t : List Char) : replaceFirst pat rep (pat ++ t) = rep ++ t := by
  cases pat with
  | nil => exact absurd rfl hne
  | cons c p =>
    rw [List.cons_append, replaceFirst]
    have hpre : (c :: p).isPrefixOf (c :: (p ++ t)) = true := by
      simp
    rw [if_pos (by simp [hpre])]
    congr 1
    have hl : (c :: p).length - 1 = p.length := by simp
    rw [hl, List.drop_left]

theorem replaceFirst_bsFree_append (pat rep : List Char) {q : List Char}
    (hpat : pat = '\\' :: q) (a t : List Char) (ha : bsFree a = true) :
    replaceFirst pat rep (a ++ t) = a ++ replaceFirst pat rep t := by
  induction a with
  | nil => rfl
  | cons c rest ih =>
    simp only [bsFree, List.all_cons, Bool.and_eq_true] at ha
    obtain ⟨hc1, hrest⟩ := ha
    have hc : '\\' ≠ c := by
      intro he
      rw [← he] at hc1
      simp at hc1
    have hnp : pat.isPrefixOf (c :: (rest ++ t)) = false := by
      rw [hpat]
      exact isPrefixOf_cons_of_ne hc
    rw [List.cons_append, replaceFirst, hnp]
    simp only [Bool.false_and, if_false]
    rw [ih (by rw [bsFree]; exact hrest)]
    simp

theorem includeDirective_inj {n m : List Char}
    (h : includeDirective n = includeDirective m) : n = m := by
  rw [includeDirective, includeDirective] at h
  have h1 : includeTag ++ n = includeTag ++ m := by
    have h2 : (includeTag ++ n) ++ ['\x7d'] = (includeTag ++ m) ++ ['\x7d'] := by
      simpa [List.append_assoc] using h
    exact List.append_cancel_right h2
  exact List.append_cancel_left h1

def c5DupDoc : List Char :=
  "\\include\x7ba\x7d\\include\x7ba\x7d".toList

/-- C5 counterexample: a root document with the same missing include
listed twice.  A missing file's directive is replaced by the placeholder
comment only once per pass, and replacing a missing include never sets
`made_replacement`, so the loop stops after the first pass with the
second `\include{a}` still unresolved in the result. -/
theorem c5_duplicate_include_counterexample :
    (findIncludes (processIncludes "/doc".toList [] 5 c5DupDoc).1).isEmpty =
      false ∧
    containsSub (includeDirective "a".toList)
      (processIncludes "/doc".toList [] 5 c5DupDoc).1 = true := by
  decide

theorem bsFree_append {a b : List Char} (ha : bsFree a = true)
    (hb : bsFree b = true) : bsFree (a ++ b) = true := by
  rw [bsFree, List.all_append]
  rw [bsFree] at ha hb
  simp [ha, hb]

theorem processIncludesAux_nil (docDir : List Char)
    (fs : List (List Char × List Char)) (fuel : Nat)
    (R : List Char) (dirs : List (List Char))
    (h : findIncludes R = []) :
    processIncludesAux docDir fs fuel R dirs = (R, dirs) := by
  cases fuel with
  | zero => rfl
  | succ m =>
    rw [processIncludesAux, h]
    simp

theorem processIncludesAux_branch (docDir : List Char)
    (fs : List (List Char × List Char)) (fuel : Nat) (st : IncState)
    (hfin : findIncludes st.doc = []) :
    (if st.made = true then
        processIncludesAux docDir fs fuel st.doc st.includeDirs
      else (st.doc, st.includeDirs)) = (st.doc, st.includeDirs) := by
  split
  · exact processIncludesAux_nil docDir fs fuel st.doc st.includeDirs hfin
  · rfl

/-- C5 (amended): when the include directives of the root document name
pairwise-distinct existing files whose comment-stripped contents carry
no backslash commands (in particular no further directives), the first
pass substitutes every directive with the file's comment-stripped
content, the following pass finds zero directives and stops, and the
result — the same for every sufficient fuel — contains zero unresolved
`\include` directives.  (The spec's bound fails for duplicate
directives of a missing file: see the counterexample.) -/
theorem c5_distinct_includes_resolve
    (docDir g0 g1 g2 n1 n2 r1 r2 c1 c2 : List Char)
    (fs : List (List Char × List Char)) (fuel : Nat)
    (hg0 : bsFree g0 = true) (hg1 : bsFree g1 = true)
    (hg2 : bsFree g2 = true)
    (hn1 : labelSafe n1 = true) (hn1e : n1 ≠ [])
    (hn2 : labelSafe n2 = true) (hn2e : n2 ≠ [])
    (hne : n1 ≠ n2)
    (hl1 : lookupContent fs (getIncludeFilename n1) = some r1)
    (hl2 : lookupContent fs (getIncludeFilename n2) = some r2)
    (hc1 : removeComments r1 = c1) (hc2 : removeComments r2 = c2)
    (hb1 : bsFree c1 = true) (hb2 : bsFree c2 = true) :
    (processIncludes docDir fs (fuel + 1 + 1)
        (g0 ++ (includeDirective n1 ++
          (g1 ++ (includeDirective n2 ++ g2))))).1 =
      g0 ++ (c1 ++ (g1 ++ (c2 ++ g2))) ∧
    findIncludes (g0 ++ (c1 ++ (g1 ++ (c2 ++ g2)))) = [] := by
  have hd1pat : includeDirective n1 =
      '\\' :: ("include\x7b".toList ++ (n1 ++ ['\x7d'])) := by
    rw [includeDirective, includeTag_head]
    simp
  have hd2pat : includeDirective n2 =
      '\\' :: ("include\x7b".toList ++ (n2 ++ ['\x7d'])) := by
    rw [includeDirective, includeTag_head]
    simp
  have hd1ne : includeDirective n1 ≠ [] := by
    rw [hd1pat]
    simp
  have hd2ne : includeDirective n2 ≠ [] := by
    rw [hd2pat]
    simp
  have hfinR : findIncludes (g0 ++ (c1 ++ (g1 ++ (c2 ++ g2)))) = [] :=
    findIncludes_nil_of_bsFree (bsFree_append hg0 (bsFree_append hb1
      (bsFree_append hg1 (bsFree_append hb2 hg2))))
  have hg2nil : findIncludesAux 0 g2 = [] := by
    have h0 := findIncludes_nil_of_bsFree hg2
    rwa [findIncludes] at h0
  have hfind : findIncludes (g0 ++ (includeDirective n1 ++
      (g1 ++ (includeDirective n2 ++ g2)))) = [n1, n2] := by
    rw [findIncludes, findIncludesAux_bsFree hg0,
      findIncludesAux_directive hn1 hn1e, findIncludesAux_bsFree hg1,
      findIncludesAux_directive hn2 hn2e, hg2nil]
  have hrepl1 : replaceFirst (includeDirective n1) c1
      (g0 ++ (includeDirective n1 ++
        (g1 ++ (includeDirective n2 ++ g2)))) =
      g0 ++ (c1 ++ (g1 ++ (includeDirective n2 ++ g2))) := by
    rw [replaceFirst_bsFree_append _ _ hd1pat g0 _ hg0]
    congr 1
    rw [replaceFirst_head hd1ne]
  have hrepl2 : replaceFirst (includeDirective n2) c2
      (g0 ++ (c1 ++ (g1 ++ (includeDirective n2 ++ g2)))) =
      g0 ++ (c1 ++ (g1 ++ (c2 ++ g2))) := by
    rw [replaceFirst_bsFree_append _ _ hd2pat g0 _ hg0]
    congr 1
    rw [replaceFirst_bsFree_append _ _ hd2pat c1 _ hb1]
    congr 1
    rw [replaceFirst_bsFree_append _ _ hd2pat g1 _ hg1]
    congr 1
    rw [replaceFirst_head hd2ne]
  have hstep1 : includeStep docDir fs
      ⟨g0 ++ (includeDirective n1 ++
        (g1 ++ (includeDirective n2 ++ g2))), false, [], []⟩ n1 =
      ⟨g0 ++ (c1 ++ (g1 ++ (includeDirective n2 ++ g2))), true,
        [includeDirective n1],
        [pathParent (docDir ++ '/' :: getIncludeFilename n1)]⟩ := by
    rw [includeStep, if_neg (by simp)]
    rw [hl1]
    dsimp only
    rw [hc1, hrepl1]
    simp
  have hdirne : (includeDirective n2 == includeDirective n1) = false := by
    rw [beq_eq_false_iff_ne]
    intro h
    exact hne (includeDirective_inj h).symm
  have hstep2 : includeStep docDir fs
      ⟨g0 ++ (c1 ++ (g1 ++ (includeDirective n2 ++ g2))), true,
        [includeDirective n1],
        [pathParent (docDir ++ '/' :: getIncludeFilename n1)]⟩ n2 =
      ⟨g0 ++ (c1 ++ (g1 ++ (c2 ++ g2))), true,
        [includeDirective n1, includeDirective n2],
        if ([pathParent (docDir ++ '/' :: getIncludeFilename n1)]).contains
            (pathParent (docDir ++ '/' :: getIncludeFilename n2))
        then [pathParent (docDir ++ '/' :: getIncludeFilename n1)]
        else [pathParent (docDir ++ '/' :: getIncludeFilename n1)] ++
          [pathParent (docDir ++ '/' :: getIncludeFilename n2)]⟩ := by
    rw [includeStep, if_neg (by simp [List.contains, List.elem, hdirne])]
    rw [hl2]
    dsimp only
    rw [hc2, hrepl2]
    simp
  refine ⟨?_, hfinR⟩
  rw [processIncludes, processIncludesAux, hfind]
  rw [if_neg (by simp)]
  simp only [List.foldl_cons, List.foldl_nil]
  rw [hstep1, hstep2]
  have hbranch := processIncludesAux_branch docDir fs (fuel + 1)
    ⟨g0 ++ (c1 ++ (g1 ++ (c2 ++ g2))), true,
      [includeDirective n1, includeDirective n2],
      if ([pathParent (docDir ++ '/' :: getIncludeFilename n1)]).contains
          (pathParent (docDir ++ '/' :: getIncludeFilename n2))
      then [pathParent (docDir ++ '/' :: getIncludeFilename n1)]
      else [pathParent (docDir ++ '/' :: getIncludeFilename n1)] ++
        [pathParent (docDir ++ '/' :: getIncludeFilename n2)]⟩ hfinR
  rw [hbranch]

/-- C5 amended-theorem witness: two distinct includes of existing
files resolve fully; the result has zero remaining directives. -/
theorem c5_distinct_includes_resolve_witness :
    (processIncludes "/doc".toList
        [("a.tex".toList, "A\n".toList), ("b.tex".toList, "B\n".toList)]
        (0 + 1 + 1)
        ("x".toList ++ (includeDirective "a".toList ++
          ("y".toList ++ (includeDirective "b".toList ++ "z".toList))))).1 =
      "x".toList ++ ("A\n".toList ++
        ("y".toList ++ ("B\n".toList ++ "z".toList))) ∧
    findIncludes ("x".toList ++ ("A\n".toList ++
      ("y".toList ++ ("B\n".toList ++ "z".toList)))) = [] :=
  c5_distinct_includes_resolve "/doc".toList "x".toList "y".toList
    "z".toList "a".toList "b".toList "A\n".toList "B\n".toList
    "A\n".toList "B\n".toList
    [("a.tex".toList, "A\n".toList), ("b.tex".toList, "B\n".toList)] 0
    (by decide) (by decide) (by decide) (by decide) (by decide)
    (by decide) (by decide) (by decide) (by decide) (by decide)
    (by decide) (by decide) (by decide) (by decide)
